import Mathlib

/-!
# maptorio: the tile pyramid builder (`render.go`)

A shallow embedding of `render.go` and a verification of its specification.

Conventions of the embedding.

* Go `int` values are mathematical integers (`Int`).  The coordinates the code
  handles come out of `strconv.Atoi`, which clamps to the 64-bit range, and
  the theorems that depend on the range carry it as a hypothesis.
* `float64(n)` for an integer `n` is the nearest integer with a 53-bit
  significand, ties to even (`float64`).  Every float the code computes is an
  integer or half an integer, so the remaining float operations are exact:
  dividing by `2.0` only changes the exponent, `math.Floor`, `math.Ceil` and
  `math.Abs` are exact, and the product of two such floats is their exact
  product, rounded.  Converting an integer-valued float back to `int` is the
  identity while the value is in the 64-bit range, which Go leaves open
  otherwise: that is always so in `half` and `abs`, and in `total` when the box
  is at most 2^32 wide and high.
* A file name is a `List Char`.  The working directory is the list of the files
  under `tiles/`, each a pair (level, base name), together with a log of the
  file-system calls and of the `total` line each level prints.
* The goroutines of one level read level `z+1` only and write level `z` only,
  so the order in which they run does not change what they read; the embedding
  of the files runs them in loop order.  Their use of the limiter is embedded
  apart, as the runs of a step function over the program points of the
  goroutine body (`Gate`), where the goroutines take their steps in any order.
* An image is known only by whether it is the placeholder `empty` or was
  decoded from a file; decoding a present file, drawing the grid and encoding
  the result are taken to succeed.
* A panic is a result `none` (or the flag `false` of `Render`); the directory
  and its log are kept as the panic leaves them.
-/

namespace Maptorio

/-! ## Numbers -/

/-- How many low bits of the magnitude `m` do not fit in a 53-bit significand
(the first argument bounds the recursion). -/
def dropBits : Nat → Nat → Nat
  | 0, _ => 0
  | fuel + 1, m => if m < 2 ^ 53 then 0 else dropBits fuel (m / 2) + 1

/-- Round a magnitude to the nearest one with a 53-bit significand, ties to
even. -/
def roundNat (m : Nat) : Nat :=
  let e := dropBits m m
  let q := m / 2 ^ e
  let r := m % 2 ^ e
  if 2 * r < 2 ^ e then q * 2 ^ e
  else if 2 ^ e < 2 * r then (q + 1) * 2 ^ e
  else if q % 2 = 0 then q * 2 ^ e
  else (q + 1) * 2 ^ e

/-- The conversion `float64(n)` of an `int`, as the integer it denotes. -/
def float64 (n : Int) : Int :=
  if n < 0 then -(roundNat n.natAbs : Int) else (roundNat n.natAbs : Int)

/-- The value of `math.Floor(f / 2.0)` for an integer-valued float `f`. -/
def floorHalf (f : Int) : Int := f / 2

/-- The value of `math.Ceil(f / 2)` for an integer-valued float `f`. -/
def ceilHalf (f : Int) : Int := -(-f / 2)

/-- The float64 product of two integer-valued floats: the exact product,
rounded. -/
def fmul (a b : Int) : Int := float64 (a * b)

/-- The function `func half(n int) int`, which returns
`int(math.Floor(float64(n) / 2.0))`. -/
def half (n : Int) : Int := floorHalf (float64 n)

/-- The function `func abs(a int) int`, which returns
`int(math.Abs(float64(a)))`. -/
def abs (a : Int) : Int := ((float64 a).natAbs : Int)

/-- The function `func min(a, b int) int`. -/
def min (a b : Int) : Int :=
  if a < b then a
  else if a > b then b
  else a

/-- The function `func max(a, b int) int`. -/
def max (a b : Int) : Int :=
  if a < b then b
  else if a > b then a
  else b

/-- The type `point`, a struct of the two ints `x` and `y`. -/
structure point where
  x : Int
  y : Int
deriving DecidableEq, Repr

/-! ## Decimal text: `strconv.Atoi` and the `%d` verb -/

/-- The value of a decimal digit. -/
def digitVal (c : Char) : Option Nat :=
  if c = '0' then some 0
  else if c = '1' then some 1
  else if c = '2' then some 2
  else if c = '3' then some 3
  else if c = '4' then some 4
  else if c = '5' then some 5
  else if c = '6' then some 6
  else if c = '7' then some 7
  else if c = '8' then some 8
  else if c = '9' then some 9
  else none

/-- Read a run of decimal digits, most significant first. -/
def parseDigits : List Char → Nat → Option Nat
  | [], acc => some acc
  | c :: cs, acc =>
    match digitVal c with
    | none => none
    | some d => parseDigits cs (acc * 10 + d)

/-- The sign and the digits of a number text: an optional `+` or `-`, and the
rest. -/
def splitSign : List Char → Bool × List Char
  | '-' :: r => (true, r)
  | '+' :: r => (false, r)
  | s => (false, s)

/-- The integer a text denotes, when it is an optional sign followed by one or
more decimal digits. -/
def parseInt (s : List Char) : Option Int :=
  match splitSign s with
  | (_, []) => none
  | (neg, ds) =>
    match parseDigits ds 0 with
    | none => none
    | some n => some (if neg then -(n : Int) else (n : Int))

/-- The value of `strconv.Atoi` with its error dropped, as
`x, _ = strconv.Atoi(s)` reads it: `0` on a syntax error, the nearest 64-bit
value on a range error. -/
def Atoi (s : List Char) : Int :=
  match parseInt s with
  | none => 0
  | some v =>
    if v < -(2 ^ 63) then -(2 ^ 63)
    else if 2 ^ 63 - 1 < v then 2 ^ 63 - 1
    else v

/-- The character of a decimal digit. -/
def digitChar (d : Nat) : Char :=
  match d with
  | 0 => '0'
  | 1 => '1'
  | 2 => '2'
  | 3 => '3'
  | 4 => '4'
  | 5 => '5'
  | 6 => '6'
  | 7 => '7'
  | 8 => '8'
  | _ => '9'

/-- The decimal digits of `n` put in front of `acc` (the first argument bounds
the recursion). -/
def natDigits : Nat → Nat → List Char → List Char
  | 0, _, acc => acc
  | fuel + 1, n, acc =>
    if n < 10 then digitChar n :: acc
    else natDigits fuel (n / 10) (digitChar (n % 10) :: acc)

/-- The text `%d` prints for `n`, which is also `strconv.Itoa(n)`. -/
def itoa (n : Int) : List Char :=
  if n < 0 then '-' :: natDigits (n.natAbs + 1) n.natAbs []
  else natDigits (n.natAbs + 1) n.natAbs []

/-- The suffix of tile files. -/
def jpg : List Char := ['.', 'j', 'p', 'g']

/-- The name `fmt.Sprintf("%dx%d.jpg", x, y)` of a tile file. -/
def fileName (x y : Int) : List Char := itoa x ++ 'x' :: (itoa y ++ jpg)

/-- The function `strings.TrimSuffix(s, suffix)`. -/
def TrimSuffix (s suffix : List Char) : List Char :=
  if suffix.isSuffixOf s then s.take (s.length - suffix.length) else s

/-- The function `strings.Split(s, "x")`: the pieces of `s` between the
letters `x`. -/
def Split : List Char → List (List Char)
  | [] => [[]]
  | c :: cs =>
    if c = 'x' then [] :: Split cs
    else
      match Split cs with
      | [] => [[c]]
      | p :: ps => (c :: p) :: ps

/-! ## The working directory -/

/-- What `readImage` returns: the placeholder `empty`, or an image decoded
from the tile file at (level, x, y). -/
inductive Image where
  | empty
  | decoded (z x y : Int)
deriving DecidableEq, Repr

/-- A call the builder makes on the working directory, or a `total` line it
prints. -/
inductive Event where
  | glob (z : Int)
  | read (z x y : Int)
  | write (z x y : Int)
  | total (z n : Int)
deriving DecidableEq, Repr

/-- The working directory: the files under `tiles/`, each with its level and
base name, and the log of what the builder did. -/
structure World where
  files : List (Int × List Char)
  log : List Event
deriving DecidableEq, Repr

/-- The files `filepath.Glob` finds for `tiles/<z>/*.jpg`, as base names. -/
def Glob (w : World) (z : Int) : List (List Char) :=
  (w.files.filter (fun f => decide (f.1 = z) && jpg.isSuffixOf f.2)).map (fun f => f.2)

/-- A tile is present when its file exists. -/
def present (w : World) (z x y : Int) : Prop := (z, fileName x y) ∈ w.files

instance (w : World) (z x y : Int) : Decidable (present w z x y) := by
  unfold present; infer_instance

/-- The directory that holds exactly the given tiles (level, x, y), with an
empty log. -/
def tileWorld (tiles : List (Int × Int × Int)) : World :=
  { files := tiles.map (fun t => (t.1, fileName t.2.1 t.2.2)), log := [] }

/-! ## The builder -/

/-- One round of the loop of `determineArea`, for the file with base name `f`;
`none` is the run-time panic of `parts[1]` out of range. -/
def areaStep (box : point × point) (f : List Char) : Option (point × point) :=
  let f := TrimSuffix f jpg
  let parts := Split f
  match parts with
  | p0 :: p1 :: _ =>
    let x := Atoi p0
    let y := Atoi p1
    some ({ x := Maptorio.min box.1.x (x - Maptorio.abs (Int.tmod x 2)),
            y := Maptorio.min box.1.y (y - Maptorio.abs (Int.tmod y 2)) },
          { x := Maptorio.max box.2.x x,
            y := Maptorio.max box.2.y y })
  | _ => none

/-- The loop of `determineArea` over the globbed files. -/
def areaLoop : List (List Char) → point × point → Option (point × point)
  | [], box => some box
  | f :: fs, box =>
    match areaStep box f with
    | none => none
    | some box1 => areaLoop fs box1

/-- The function `func determineArea(wd string, z int) (point, point)`; `none`
is a panic, and the directory is returned as the call leaves it either way. -/
def determineArea (w : World) (z : Int) : Option (point × point) × World :=
  let files := Glob w z
  (areaLoop files ({ x := 0, y := 0 }, { x := 0, y := 0 }),
    { w with log := Event.glob z :: w.log })

/-- The function `func readImage(wd string, z, x, y int) image.Image`. -/
def readImage (w : World) (z x y : Int) : Image × World :=
  let w1 := { w with log := Event.read z x y :: w.log }
  if (z, fileName x y) ∈ w.files then (Image.decoded z x y, w1) else (Image.empty, w1)

/-- The function `func readImages(wd string, z, x, y int) []image.Image`;
`none` is its `nil`. -/
def readImages (w : World) (z x y : Int) : Option (List Image) × World :=
  let (tl, w1) := readImage w z x y
  let (tr, w2) := readImage w1 z (x + 1) y
  let (bl, w3) := readImage w2 z x (y + 1)
  let (br, w4) := readImage w3 z (x + 1) (y + 1)
  if tl = Image.empty ∧ tr = Image.empty ∧ bl = Image.empty ∧ br = Image.empty then
    (none, w4)
  else
    (some [tl, tr, bl, br], w4)

/-- The function `func writeImage(wd string, z, x, y int, im image.Image) error`:
`os.Create` makes the file, or truncates the one that is there. -/
def writeImage (w : World) (z x y : Int) : World :=
  { files := if (z, fileName x y) ∈ w.files then w.files else (z, fileName x y) :: w.files,
    log := Event.write z x y :: w.log }

/-- The function `func makeTile(wd string, z, x, y int)`. -/
def makeTile (w : World) (z x y : Int) : World :=
  match readImages w (z + 1) x y with
  | (none, w1) => w1
  | (some _, w1) => writeImage w1 z (half x) (half y)

/-- The values `v = lo, lo+2, ...` of `for v := lo; v <= hi; v += 2` (the first
argument bounds the recursion). -/
def forStep2 : Nat → Int → Int → List Int
  | 0, _, _ => []
  | fuel + 1, v, hi => if v ≤ hi then v :: forStep2 fuel (v + 2) hi else []

/-- The loop variable's values of `for v := lo; v <= hi; v += 2`. -/
def loopValues (lo hi : Int) : List Int := forStep2 (hi - lo + 1).toNat lo hi

/-- The `total` of `makeLevel`:
`int(math.Ceil(float64(width)/2) * math.Ceil(float64(height)/2))`. -/
def levelTotal (topleft bottomright : point) : Int :=
  let width := bottomright.x - topleft.x
  let height := bottomright.y - topleft.y
  fmul (ceilHalf (float64 width)) (ceilHalf (float64 height))

/-- The two nested loops of `makeLevel`, one `makeTile` per round. -/
def levelLoop (w : World) (z : Int) (topleft bottomright : point) : World :=
  (loopValues topleft.x bottomright.x).foldl
    (fun w x => (loopValues topleft.y bottomright.y).foldl (fun w y => makeTile w z x y) w) w

/-- The function `func makeLevel(wd string, z int) bool`; `none` is a panic. -/
def makeLevel (w : World) (z : Int) : Option Bool × World :=
  match determineArea w (z + 1) with
  | (none, w1) => (none, w1)
  | (some (topleft, bottomright), w1) =>
    let total := levelTotal topleft bottomright
    let w2 := { w1 with log := Event.total z total :: w1.log }
    let w3 := levelLoop w2 z topleft bottomright
    if total ≤ 1 then (some false, w3) else (some true, w3)

/-- The loop of `Render`, `for z := n - 1; z >= 0; z--`, which stops at the
first level that reports no more levels; the flag tells whether it ran without
a panic. -/
def renderLoop : Nat → World → Bool × World
  | 0, w => (true, w)
  | z + 1, w =>
    match makeLevel w (z : Int) with
    | (none, w1) => (false, w1)
    | (some hasmore, w1) => if hasmore then renderLoop z w1 else (true, w1)

/-- The function `func Render(wd string)`, once the placeholder is loaded. -/
def Render (w : World) : Bool × World := renderLoop 10 w

/-! ## Reading the log -/

/-- The level of a call that reads the directory. -/
def Event.readLevel : Event → Option Int
  | Event.glob z => some z
  | Event.read z _ _ => some z
  | _ => none

/-- The level of a call that writes a tile. -/
def Event.writeLevel : Event → Option Int
  | Event.write z _ _ => some z
  | _ => none

/-- The totals the levels printed, latest first. -/
def totals : List Event → List Int
  | [] => []
  | Event.total _ n :: es => n :: totals es
  | _ :: es => totals es

/-- The tiles written, latest first. -/
def written : List Event → List (Int × Int × Int)
  | [] => []
  | Event.write z x y :: es => (z, x, y) :: written es
  | _ :: es => written es

/-- The levels globbed, latest first: one per call of `determineArea`. -/
def scans : List Event → List Int
  | [] => []
  | Event.glob z :: es => z :: scans es
  | _ :: es => scans es

/-! ## The goroutines of a level and the limiter

`makeLevel` starts one goroutine per quad,

    go func(z, x, y int) {
        limiter <- struct{}{}
        defer func() { <-limiter; bar.Increment(); wg.Done() }()
        makeTile(wd, z, x, y)
    }(z, x, y)

and waits for them with `wg.Wait()`.  The goroutines run in any order: a run
is a list of the steps below, each taken by one goroutine, and a step that
cannot be taken now (a send on the full channel) is not part of a run. -/

/-- The capacity of `var limiter = make(chan struct{}, 48)`. -/
def limiterCap : Nat := 48

/-- How `makeTile` ends in a task. -/
inductive Outcome where
  | returned
  | panicked
deriving DecidableEq, Repr

/-- Where a task stands: blocked at `limiter <- struct{}{}`; working, with its
token sent and the deferred function set, inside `makeTile`; unwinding, with
`makeTile` over and the deferred function about to run `<-limiter`; or done,
with the deferred function over. -/
inductive Phase where
  | blocked
  | working
  | unwinding (o : Outcome)
  | done (o : Outcome)
deriving DecidableEq, Repr

/-- A task holds a slot from its send on `limiter` to its receive. -/
def Phase.holds : Phase → Bool
  | Phase.working => true
  | Phase.unwinding _ => true
  | _ => false

/-- The deferred function of a task is over. -/
def Phase.isDone : Phase → Bool
  | Phase.done _ => true
  | _ => false

/-- The limiter and the goroutines of the level under way: the number of
tokens in the channel, the number of quads the loops have not reached, the
tasks started in this level in loop order, whether a task has panicked and run
its deferred function, and whether the runtime has ended the program. -/
structure Gate where
  tokens : Nat
  todo : Nat
  tasks : List Phase
  panicking : Bool
  halted : Bool
deriving DecidableEq, Repr

/-- A step of a run: the loops start the task of the next quad
(`wg.Add(1); go func...`); task i sends its token; `makeTile` ends in task i;
task i runs its deferred function; `wg.Wait()` returns and the next level
starts with n quads; the runtime ends the program after a panic. -/
inductive Action where
  | spawn
  | send (i : Nat)
  | finish (i : Nat) (o : Outcome)
  | receive (i : Nat)
  | nextLevel (n : Nat)
  | halt
deriving DecidableEq, Repr

/-- The state when `Render` starts a first level of n quads: the channel is
empty and no task is started. -/
def Gate.start (n : Nat) : Gate :=
  { tokens := 0, todo := n, tasks := [], panicking := false, halted := false }

/-- The state after a step, or `none` when the step cannot be taken: a send
waits while the channel holds `limiterCap` tokens, a receive takes a token
that is there, and `wg.Wait()` returns once every started task is done. -/
def Gate.step (g : Gate) (a : Action) : Option Gate :=
  if g.halted then none
  else
    match a with
    | Action.spawn =>
      if 0 < g.todo then
        some { g with todo := g.todo - 1, tasks := g.tasks ++ [Phase.blocked] }
      else none
    | Action.send i =>
      if g.tasks.get? i = some Phase.blocked ∧ g.tokens < limiterCap then
        some { g with tokens := g.tokens + 1, tasks := g.tasks.set i Phase.working }
      else none
    | Action.finish i o =>
      if g.tasks.get? i = some Phase.working then
        some { g with tasks := g.tasks.set i (Phase.unwinding o) }
      else none
    | Action.receive i =>
      match g.tasks.get? i with
      | some (Phase.unwinding o) =>
        if 0 < g.tokens then
          some { g with tokens := g.tokens - 1, tasks := g.tasks.set i (Phase.done o),
                        panicking := g.panicking || decide (o = Outcome.panicked) }
        else none
      | _ => none
    | Action.nextLevel n =>
      if g.todo = 0 ∧ g.tasks.all Phase.isDone = true then
        some { g with todo := n, tasks := [] }
      else none
    | Action.halt =>
      if g.panicking then some { g with halted := true } else none

/-- The state after a run, or `none` when one of its steps cannot be taken. -/
def Gate.run : Gate → List Action → Option Gate
  | g, [] => some g
  | g, a :: as =>
    match g.step a with
    | none => none
    | some g1 => Gate.run g1 as

/-- The number of tasks in a list that hold a slot. -/
def holdingCount : List Phase → Nat
  | [] => 0
  | p :: ps => (if p.holds then 1 else 0) + holdingCount ps

/-- The number of tasks that hold a slot of the limiter. -/
def Gate.holding (g : Gate) : Nat := holdingCount g.tasks

/-! ## Predicates used in the statements -/

/-- Some child of the quad at (x, y) of level z+1 is present. -/
def anyChild (w : World) (z x y : Int) : Prop :=
  present w (z + 1) x y ∨ present w (z + 1) (x + 1) y ∨
    present w (z + 1) x (y + 1) ∨ present w (z + 1) (x + 1) (y + 1)

instance (w : World) (z x y : Int) : Decidable (anyChild w z x y) := by
  unfold anyChild; infer_instance

/-- A non-empty run of digit characters. -/
def digitRun (ds : List Char) : Prop := ds ≠ [] ∧ ∀ c ∈ ds, digitVal c ≠ none

/-- The value v is the least of v0 and the values in S. -/
def IsMinOf (v v0 : Int) (S : Int → Prop) : Prop :=
  v ≤ v0 ∧ (∀ a, S a → v ≤ a) ∧ (v = v0 ∨ S v)

/-- The value v is the greatest of v0 and the values in S. -/
def IsMaxOf (v v0 : Int) (S : Int → Prop) : Prop :=
  v0 ≤ v ∧ (∀ a, S a → a ≤ v) ∧ (v = v0 ∨ S v)

/-- A 64-bit `int`. -/
def isInt64 (n : Int) : Prop := -(2 ^ 63) ≤ n ∧ n < 2 ^ 63

instance (n : Int) : Decidable (isInt64 n) := by
  unfold isInt64; infer_instance

/-- An `int` that float64 holds exactly. -/
def isExact (n : Int) : Prop := -(2 ^ 53) ≤ n ∧ n ≤ 2 ^ 53

instance (n : Int) : Decidable (isExact n) := by
  unfold isExact; infer_instance

/-- Every file of level z is a tile file whose coordinates satisfy P. -/
def tilesOnly (P : Int → Prop) (w : World) (z : Int) : Prop :=
  ∀ f ∈ w.files, f.1 = z → ∃ x y, P x ∧ P y ∧ f.2 = fileName x y

/-- The files of w are those of w0 and the tiles of level z that `makeTile`
writes for the quads of w0 picked by P. -/
def Grown (z : Int) (w0 w : World) (P : Int → Int → Prop) : Prop :=
  ∀ f, f ∈ w.files ↔
    f ∈ w0.files ∨ ∃ a b, P a b ∧ anyChild w0 z a b ∧ f = (z, fileName (half a) (half b))

/-- An event of one `makeTile` of level z: a read at level z+1 or a write at
level z. -/
def tileEvent (z : Int) : Event → Prop
  | Event.read l _ _ => l = z + 1
  | Event.write l _ _ => l = z
  | _ => False

/-- An event of `makeLevel` of level z. -/
def levelEvent (z : Int) : Event → Prop
  | Event.glob l => l = z + 1
  | Event.read l _ _ => l = z + 1
  | Event.write l _ _ => l = z
  | Event.total l _ => l = z

/-- The log of w1 is the log of w with events in front that all satisfy Q. -/
def Extends (Q : Event → Prop) (w w1 : World) : Prop :=
  ∃ new, w1.log = new ++ w.log ∧ ∀ e ∈ new, Q e

/-- The only file of level n is the tile (x, y), and no file is of a level
below n. -/
def single (w : World) (n x y : Int) : Prop :=
  present w n x y ∧ (∀ f ∈ w.files, n ≤ f.1) ∧ (∀ f ∈ w.files, f.1 = n → f.2 = fileName x y)

/-- The `total` of the level whose only tile is (x, y). -/
def boxTotal (x y : Int) : Int :=
  levelTotal { x := Min.min 0 (2 * (x / 2)), y := Min.min 0 (2 * (y / 2)) }
    { x := Max.max 0 x, y := Max.max 0 y }

/-- A coordinate of level n that halves to one of -1 and 0 in n-1 levels, and
to -2, -1 or 0 in n-1 levels of boxes. -/
def inRange (n : Nat) (c : Int) : Prop := -(2 ^ n) ≤ c ∧ 2 * c < 2 ^ n

instance (n : Nat) (c : Int) : Decidable (inRange n c) := by
  unfold inRange; infer_instance

/-- The coordinate c halved k times, rounding down. -/
def halves : Nat → Int → Int
  | 0, c => c
  | k + 1, c => halves k (c / 2)

/-- The point `determineArea` reads from a file name: `Atoi` of the first two
pieces of the name between the letters `x`. -/
def readName (f : List Char) : point :=
  match Split (TrimSuffix f jpg) with
  | p0 :: p1 :: _ => { x := Atoi p0, y := Atoi p1 }
  | _ => { x := 0, y := 0 }

/-- The tile file name of the point read from a file name. -/
def canonName (f : List Char) : List Char := fileName (readName f).x (readName f).y

/-- A coordinate of at most 2^31 in size: for a level of such coordinates the
box is at most 2^32 wide and high, and `total` fits a 64-bit `int`. -/
def isModest (n : Int) : Prop := -(2 ^ 31) ≤ n ∧ n ≤ 2 ^ 31

instance (n : Int) : Decidable (isModest n) := by
  unfold isModest; infer_instance

/-- The tokens in the channel are those of the tasks that hold a slot, and
they are at most the capacity. -/
def Gate.Balanced (g : Gate) : Prop := g.tokens = g.holding ∧ g.tokens ≤ limiterCap

/-- A level of two quads with both tasks past their send, the first inside
`makeTile` and the second with `makeTile` panicked. -/
def twoTasks : Gate :=
  { tokens := 2, todo := 0, tasks := [Phase.working, Phase.unwinding Outcome.panicked],
    panicking := false, halted := false }

/-! ## Facts about the numbers -/

theorem dropBits_small (fuel m : Nat) (h : m < 2 ^ 53) : dropBits fuel m = 0 := by
  cases fuel with
  | zero => rfl
  | succ k => rw [dropBits, if_pos h]

theorem roundNat_exact (m : Nat) (h : m ≤ 2 ^ 53) : roundNat m = m := by
  rcases Nat.lt_or_eq_of_le h with h1 | h1
  · simp [roundNat, dropBits_small m m h1, Nat.mod_one]
  · subst h1; decide

theorem float64_exact (n : Int) (h1 : -(2 ^ 53) ≤ n) (h2 : n ≤ 2 ^ 53) : float64 n = n := by
  unfold float64
  have hm : n.natAbs ≤ 2 ^ 53 := by omega
  rw [roundNat_exact _ hm]
  split_ifs <;> omega

theorem half_exact (n : Int) (h1 : -(2 ^ 53) ≤ n) (h2 : n ≤ 2 ^ 53) : half n = n / 2 := by
  unfold half floorHalf
  rw [float64_exact n h1 h2]

theorem min_eq (a b : Int) : Maptorio.min a b = Min.min a b := by
  unfold Maptorio.min; split_ifs <;> omega

theorem max_eq (a b : Int) : Maptorio.max a b = Max.max a b := by
  unfold Maptorio.max; split_ifs <;> omega

theorem tmod_two_cases (x : Int) :
    (0 ≤ x ∧ Int.tmod x 2 = x % 2) ∨ (x < 0 ∧ Int.tmod x 2 = -((-x) % 2)) := by
  cases x with
  | ofNat n => left; exact ⟨Int.ofNat_nonneg n, rfl⟩
  | negSucc n => right; exact ⟨Int.negSucc_lt_zero n, rfl⟩

theorem abs_tmod_two (x : Int) : x - Maptorio.abs (Int.tmod x 2) = 2 * (x / 2) := by
  have h0 : Maptorio.abs 0 = 0 := by decide
  have h1 : Maptorio.abs 1 = 1 := by decide
  have h2 : Maptorio.abs (-1) = 1 := by decide
  rcases tmod_two_cases x with ⟨hx, h⟩ | ⟨hx, h⟩
  · rw [h]
    rcases Int.emod_two_eq x with e | e <;> rw [e] <;> simp only [h0, h1] <;> omega
  · rw [h]
    rcases Int.emod_two_eq (-x) with e | e <;> rw [e] <;> simp only [h0, h2, neg_zero] <;> omega

theorem makeTile_files (w : World) (z x y : Int) :
    (makeTile w z x y).files =
      if anyChild w z x y then
        (if (z, fileName (half x) (half y)) ∈ w.files then w.files
         else (z, fileName (half x) (half y)) :: w.files)
      else w.files := by
  unfold makeTile readImages readImage writeImage anyChild present
  by_cases h1 : (z + 1, fileName x y) ∈ w.files <;>
  by_cases h2 : (z + 1, fileName (x + 1) y) ∈ w.files <;>
  by_cases h3 : (z + 1, fileName x (y + 1)) ∈ w.files <;>
  by_cases h4 : (z + 1, fileName (x + 1) (y + 1)) ∈ w.files <;>
  simp [h1, h2, h3, h4]

theorem makeTile_written (w : World) (z x y : Int) :
    written (makeTile w z x y).log =
      if anyChild w z x y then (z, half x, half y) :: written w.log else written w.log := by
  unfold makeTile readImages readImage writeImage anyChild present
  by_cases h1 : (z + 1, fileName x y) ∈ w.files <;>
  by_cases h2 : (z + 1, fileName (x + 1) y) ∈ w.files <;>
  by_cases h3 : (z + 1, fileName x (y + 1)) ∈ w.files <;>
  by_cases h4 : (z + 1, fileName (x + 1) (y + 1)) ∈ w.files <;>
  simp [h1, h2, h3, h4, written]

/-- C2: for an integer n that float64 holds exactly, half n is the floor of
n/2, the one h with 2h <= n <= 2h+1, also for negative n (half (-1) = -1,
half (-3) = -2); so for a quad at even (x, y) with a present child at (cx, cy),
makeTile writes the tile at (floor(cx/2), floor(cy/2)). -/
theorem half_floor_makeTile (n : Int) (hn1 : -(2 ^ 53) ≤ n) (hn2 : n ≤ 2 ^ 53)
    (w : World) (z x y cx cy : Int)
    (hx : x % 2 = 0) (hy : y % 2 = 0)
    (hx1 : -(2 ^ 53) ≤ x) (hx2 : x ≤ 2 ^ 53) (hy1 : -(2 ^ 53) ≤ y) (hy2 : y ≤ 2 ^ 53)
    (hcx : cx = x ∨ cx = x + 1) (hcy : cy = y ∨ cy = y + 1)
    (hc : present w (z + 1) cx cy) :
    half n = Int.fdiv n 2 ∧ (∀ h : Int, (2 * h ≤ n ∧ n ≤ 2 * h + 1) ↔ h = half n) ∧
      half (-1) = -1 ∧ half (-3) = -2 ∧
      written (makeTile w z x y).log = (z, Int.fdiv cx 2, Int.fdiv cy 2) :: written w.log ∧
      present (makeTile w z x y) z (Int.fdiv cx 2) (Int.fdiv cy 2) := by
  have hfd : ∀ a : Int, Int.fdiv a 2 = a / 2 := fun a =>
    Int.fdiv_eq_ediv a (by decide)
  have hany : anyChild w z x y := by
    unfold anyChild
    rcases hcx with rfl | rfl <;> rcases hcy with rfl | rfl <;> simp [hc]
  have ex : half x = cx / 2 := by rw [half_exact x hx1 hx2]; omega
  have ey : half y = cy / 2 := by rw [half_exact y hy1 hy2]; omega
  refine ⟨?_, ?_, by decide, by decide, ?_, ?_⟩
  · rw [hfd, half_exact n hn1 hn2]
  · intro h; rw [half_exact n hn1 hn2]; omega
  · rw [makeTile_written, if_pos hany, hfd, hfd, ex, ey]
  · unfold present
    rw [makeTile_files, if_pos hany, hfd, hfd, ex, ey]
    split_ifs with hm
    · exact hm
    · exact List.mem_cons_self _ _

/-- C2 at n = -7 and at the quad (-4, -6) of level 9 with the one child (-3, -5). -/
theorem half_floor_makeTile_witness :
    half (-7) = Int.fdiv (-7) 2 ∧ (∀ h : Int, (2 * h ≤ -7 ∧ -7 ≤ 2 * h + 1) ↔ h = half (-7)) ∧
      half (-1) = -1 ∧ half (-3) = -2 ∧
      written (makeTile (tileWorld [(9, -3, -5)]) 8 (-4) (-6)).log
        = (8, Int.fdiv (-3) 2, Int.fdiv (-5) 2) :: written (tileWorld [(9, -3, -5)]).log ∧
      present (makeTile (tileWorld [(9, -3, -5)]) 8 (-4) (-6)) 8 (Int.fdiv (-3) 2) (Int.fdiv (-5) 2) :=
  half_floor_makeTile (-7) (by decide) (by decide) (tileWorld [(9, -3, -5)]) 8 (-4) (-6) (-3) (-5)
    (by decide) (by decide) (by decide) (by decide) (by decide) (by decide)
    (by decide) (by decide) (by decide)

/-! ## Facts about decimal text -/

theorem digitVal_digitChar (d : Nat) (h : d < 10) : digitVal (digitChar d) = some d := by
  interval_cases d <;> rfl

theorem digitChar_isDigit (d : Nat) : digitVal (digitChar d) ≠ none := by
  unfold digitChar
  split <;> decide

theorem parseDigits_append (ds rest : List Char) (a : Nat) :
    parseDigits (ds ++ rest) a = (parseDigits ds a).bind (parseDigits rest) := by
  induction ds generalizing a with
  | nil => rfl
  | cons c cs ih =>
    simp only [List.cons_append, parseDigits]
    cases digitVal c with
    | none => rfl
    | some d => exact ih _


theorem natDigits_spec (fuel : Nat) : ∀ (n : Nat) (acc : List Char), n < fuel →
    ∃ ds, natDigits fuel n acc = ds ++ acc ∧ digitRun ds ∧ parseDigits ds 0 = some n := by
  induction fuel with
  | zero => intro n acc h; omega
  | succ k ih =>
    intro n acc h
    unfold natDigits
    split_ifs with h10
    · refine ⟨[digitChar n], rfl, ⟨by simp, ?_⟩, ?_⟩
      · intro c hc
        rw [List.mem_singleton] at hc
        rw [hc]; exact digitChar_isDigit n
      · simp [parseDigits, digitVal_digitChar n h10]
    · obtain ⟨ds, e, ⟨hne, hd⟩, hp⟩ := ih (n / 10) (digitChar (n % 10) :: acc) (by omega)
      refine ⟨ds ++ [digitChar (n % 10)], by rw [e]; simp, ⟨by simp, ?_⟩, ?_⟩
      · intro c hc
        rcases List.mem_append.1 hc with hc | hc
        · exact hd c hc
        · rw [List.mem_singleton] at hc
          rw [hc]; exact digitChar_isDigit _
      · rw [parseDigits_append, hp]
        simp only [Option.bind, parseDigits, digitVal_digitChar (n % 10) (Nat.mod_lt _ (by decide))]
        congr 1; omega

theorem itoa_spec (n : Int) :
    ∃ ds, digitRun ds ∧ parseDigits ds 0 = some n.natAbs ∧
      itoa n = if n < 0 then '-' :: ds else ds := by
  obtain ⟨ds, e, hr, hp⟩ := natDigits_spec (n.natAbs + 1) n.natAbs [] (Nat.lt_succ_self _)
  rw [List.append_nil] at e
  refine ⟨ds, hr, hp, ?_⟩
  unfold itoa
  rw [e]

theorem splitSign_digitRun (ds : List Char) (h : digitRun ds) : splitSign ds = (false, ds) := by
  obtain ⟨hne, hd⟩ := h
  cases ds with
  | nil => exact absurd rfl hne
  | cons c cs =>
    have hc := hd c (List.mem_cons_self _ _)
    unfold splitSign
    split
    · rename_i r heq
      injection heq with h1 h2
      rw [h1] at hc; exact absurd (by decide) hc
    · rename_i r heq
      injection heq with h1 h2
      rw [h1] at hc; exact absurd (by decide) hc
    · rfl

theorem parseInt_itoa (n : Int) : parseInt (itoa n) = some n := by
  obtain ⟨ds, hr, hp, e⟩ := itoa_spec n
  rw [e]
  have hne := hr.1
  split_ifs with hneg
  · unfold parseInt
    have : splitSign ('-' :: ds) = (true, ds) := rfl
    rw [this]
    cases ds with
    | nil => exact absurd rfl hne
    | cons c cs =>
      simp only [hp]
      simp only [if_true, Option.some.injEq]
      omega
  · unfold parseInt
    rw [splitSign_digitRun ds hr]
    cases ds with
    | nil => exact absurd rfl hne
    | cons c cs =>
      simp only [hp]
      simp only [Bool.false_eq_true, if_false, Option.some.injEq]
      omega

theorem Atoi_itoa (n : Int) (h1 : -(2 ^ 63) ≤ n) (h2 : n < 2 ^ 63) : Atoi (itoa n) = n := by
  unfold Atoi
  rw [parseInt_itoa]
  simp only
  split_ifs <;> omega

theorem itoa_no_x (n : Int) : 'x' ∉ itoa n := by
  obtain ⟨ds, hr, _, e⟩ := itoa_spec n
  rw [e]
  have hx : 'x' ∉ ds := fun hm => hr.2 'x' hm (by decide)
  split_ifs
  · intro hm
    rcases List.mem_cons.1 hm with h | h
    · exact absurd h (by decide)
    · exact hx h
  · exact hx

theorem Split_no_x (b : List Char) (h : 'x' ∉ b) : Split b = [b] := by
  induction b with
  | nil => rfl
  | cons c cs ih =>
    have hc : c ≠ 'x' := fun e => h (by rw [e]; exact List.mem_cons_self _ _)
    have hcs : 'x' ∉ cs := fun e => h (List.mem_cons_of_mem _ e)
    rw [Split, if_neg hc, ih hcs]

theorem Split_append_x (a b : List Char) (h : 'x' ∉ a) :
    Split (a ++ 'x' :: b) = a :: Split b := by
  induction a with
  | nil => simp [Split]
  | cons c cs ih =>
    have hc : c ≠ 'x' := fun e => h (by rw [e]; exact List.mem_cons_self _ _)
    have hcs : 'x' ∉ cs := fun e => h (List.mem_cons_of_mem _ e)
    rw [List.cons_append, Split, if_neg hc, ih hcs]

theorem fileName_suffix (x y : Int) : jpg.isSuffixOf (fileName x y) = true := by
  rw [List.isSuffixOf_iff_suffix]
  exact ⟨itoa x ++ 'x' :: itoa y, by simp [fileName]⟩

theorem TrimSuffix_fileName (x y : Int) :
    TrimSuffix (fileName x y) jpg = itoa x ++ 'x' :: itoa y := by
  unfold TrimSuffix
  rw [if_pos (fileName_suffix x y)]
  have e : fileName x y = (itoa x ++ 'x' :: itoa y) ++ jpg := by simp [fileName]
  rw [e]
  apply List.take_left'
  simp only [List.length_append, List.length_cons]
  omega

theorem Split_fileName (x y : Int) :
    Split (TrimSuffix (fileName x y) jpg) = [itoa x, itoa y] := by
  rw [TrimSuffix_fileName, Split_append_x _ _ (itoa_no_x x), Split_no_x _ (itoa_no_x y)]

theorem fileName_inj (x y a b : Int) (h : fileName x y = fileName a b) : x = a ∧ y = b := by
  have h1 := Split_fileName x y
  rw [h, Split_fileName] at h1
  simp only [List.cons.injEq, and_true] at h1
  obtain ⟨e1, e2⟩ := h1
  have p1 := parseInt_itoa x
  have p2 := parseInt_itoa y
  rw [← e1, parseInt_itoa] at p1
  rw [← e2, parseInt_itoa] at p2
  exact ⟨(Option.some.inj p1).symm, (Option.some.inj p2).symm⟩

/-! ## The bounding box -/

theorem areaStep_fileName (box : point × point) (x y : Int) (hx : isInt64 x) (hy : isInt64 y) :
    areaStep box (fileName x y) =
      some ({ x := Min.min box.1.x (2 * (x / 2)), y := Min.min box.1.y (2 * (y / 2)) },
            { x := Max.max box.2.x x, y := Max.max box.2.y y }) := by
  unfold areaStep
  simp only [Split_fileName, Atoi_itoa x hx.1 hx.2, Atoi_itoa y hy.1 hy.2, abs_tmod_two,
    min_eq, max_eq]

theorem IsMinOf.step_min {v v0 a : Int} {S T : Int → Prop} (h : IsMinOf v (Min.min v0 a) S)
    (hT : ∀ b, T b ↔ b = a ∨ S b) : IsMinOf v v0 T := by
  obtain ⟨h1, h2, h3⟩ := h
  refine ⟨by omega, ?_, ?_⟩
  · intro b hb
    rcases (hT b).1 hb with e | e
    · omega
    · exact h2 b e
  · rcases h3 with e | e
    · rcases le_total v0 a with c | c
      · left; rw [e]; exact min_eq_left c
      · right; rw [e, min_eq_right c]; exact (hT a).2 (Or.inl rfl)
    · right; exact (hT v).2 (Or.inr e)

theorem IsMaxOf.step_max {v v0 a : Int} {S T : Int → Prop} (h : IsMaxOf v (Max.max v0 a) S)
    (hT : ∀ b, T b ↔ b = a ∨ S b) : IsMaxOf v v0 T := by
  obtain ⟨h1, h2, h3⟩ := h
  refine ⟨by omega, ?_, ?_⟩
  · intro b hb
    rcases (hT b).1 hb with e | e
    · omega
    · exact h2 b e
  · rcases h3 with e | e
    · rcases le_total v0 a with c | c
      · right; rw [e, max_eq_right c]; exact (hT a).2 (Or.inl rfl)
      · left; rw [e]; exact max_eq_left c
    · right; exact (hT v).2 (Or.inr e)

theorem areaLoop_spec (fs : List (List Char)) :
    ∀ box : point × point,
    (∀ f ∈ fs, ∃ x y, isInt64 x ∧ isInt64 y ∧ f = fileName x y) →
    ∃ tl br, areaLoop fs box = some (tl, br) ∧
      IsMinOf tl.x box.1.x (fun a => ∃ x y, fileName x y ∈ fs ∧ a = 2 * (x / 2)) ∧
      IsMinOf tl.y box.1.y (fun a => ∃ x y, fileName x y ∈ fs ∧ a = 2 * (y / 2)) ∧
      IsMaxOf br.x box.2.x (fun a => ∃ x y, fileName x y ∈ fs ∧ a = x) ∧
      IsMaxOf br.y box.2.y (fun a => ∃ x y, fileName x y ∈ fs ∧ a = y) := by
  induction fs with
  | nil =>
    intro box _
    refine ⟨box.1, box.2, rfl, ?_, ?_, ?_, ?_⟩ <;>
      exact ⟨le_refl _, by simp, Or.inl rfl⟩
  | cons f fs ih =>
    intro box h
    obtain ⟨x, y, hx, hy, rfl⟩ := h f (List.mem_cons_self _ _)
    obtain ⟨tl, br, e, m1, m2, m3, m4⟩ :=
      ih ({ x := Min.min box.1.x (2 * (x / 2)), y := Min.min box.1.y (2 * (y / 2)) },
          { x := Max.max box.2.x x, y := Max.max box.2.y y })
        (fun g hg => h g (List.mem_cons_of_mem _ hg))
    refine ⟨tl, br, ?_, m1.step_min ?_, m2.step_min ?_, m3.step_max ?_, m4.step_max ?_⟩
    · rw [areaLoop, areaStep_fileName box x y hx hy]
      exact e
    all_goals
      intro b
      constructor
      · rintro ⟨a, c, hm, hb⟩
        rcases List.mem_cons.1 hm with hm | hm
        · have hi := fileName_inj _ _ _ _ hm
          left; rw [hb]; first | rw [hi.1] | rw [hi.2]
        · exact Or.inr ⟨a, c, hm, hb⟩
      · rintro (hb | ⟨a, c, hm, hb⟩)
        · exact ⟨x, y, List.mem_cons_self _ _, hb⟩
        · exact ⟨a, c, List.mem_cons_of_mem _ hm, hb⟩

theorem mem_Glob (w : World) (z : Int) (n : List Char) :
    n ∈ Glob w z ↔ (z, n) ∈ w.files ∧ jpg.isSuffixOf n = true := by
  unfold Glob
  simp only [List.mem_map, List.mem_filter, Bool.and_eq_true, decide_eq_true_eq]
  constructor
  · rintro ⟨f, ⟨hf, hz, hs⟩, rfl⟩
    refine ⟨?_, hs⟩
    rw [← hz]; exact hf
  · rintro ⟨hf, hs⟩
    exact ⟨(z, n), ⟨hf, rfl, hs⟩, rfl⟩

theorem fileName_mem_Glob (w : World) (z x y : Int) :
    fileName x y ∈ Glob w z ↔ present w z x y := by
  rw [mem_Glob]
  unfold present
  simp [fileName_suffix]

/-- The box that `determineArea` finds for a level of tiles: the least even
corner and the greatest corner over the tiles and the origin. -/
theorem determineArea_spec (w : World) (z : Int) (h : tilesOnly isInt64 w z) :
    ∃ tl br, determineArea w z = (some (tl, br), { w with log := Event.glob z :: w.log }) ∧
      IsMinOf tl.x 0 (fun a => ∃ x y, present w z x y ∧ a = 2 * (x / 2)) ∧
      IsMinOf tl.y 0 (fun a => ∃ x y, present w z x y ∧ a = 2 * (y / 2)) ∧
      IsMaxOf br.x 0 (fun a => ∃ x y, present w z x y ∧ a = x) ∧
      IsMaxOf br.y 0 (fun a => ∃ x y, present w z x y ∧ a = y) := by
  have hg : ∀ f ∈ Glob w z, ∃ x y, isInt64 x ∧ isInt64 y ∧ f = fileName x y := by
    intro f hf
    rw [mem_Glob] at hf
    exact h (z, f) hf.1 rfl
  obtain ⟨tl, br, e, m⟩ := areaLoop_spec (Glob w z) ({ x := 0, y := 0 }, { x := 0, y := 0 }) hg
  refine ⟨tl, br, ?_, ?_⟩
  · unfold determineArea
    simp only [e]
  · simpa only [fileName_mem_Glob] using m

/-! ## The loops of a level -/

theorem mem_forStep2 (fuel : Nat) : ∀ (lo hi v : Int), hi - lo + 1 ≤ fuel →
    (v ∈ forStep2 fuel lo hi ↔ lo ≤ v ∧ v ≤ hi ∧ (v - lo) % 2 = 0) := by
  induction fuel with
  | zero =>
    intro lo hi v h
    simp only [forStep2, List.not_mem_nil, false_iff]
    omega
  | succ k ih =>
    intro lo hi v h
    unfold forStep2
    split_ifs with hle
    · rw [List.mem_cons, ih (lo + 2) hi v (by omega)]
      omega
    · simp only [List.not_mem_nil, false_iff]
      omega

theorem mem_loopValues (lo hi v : Int) :
    v ∈ loopValues lo hi ↔ lo ≤ v ∧ v ≤ hi ∧ (v - lo) % 2 = 0 := by
  unfold loopValues
  apply mem_forStep2
  omega

theorem Grown.congr {z : Int} {w0 w : World} {P Q : Int → Int → Prop}
    (h : Grown z w0 w P) (hPQ : ∀ a b, P a b ↔ Q a b) : Grown z w0 w Q := by
  intro f
  rw [h f]
  simp only [hPQ]

theorem Grown.present_src {z : Int} {w0 w : World} {P : Int → Int → Prop}
    (h : Grown z w0 w P) (a b : Int) : present w (z + 1) a b ↔ present w0 (z + 1) a b := by
  unfold present
  rw [h]
  constructor
  · rintro (h1 | ⟨_, _, _, _, e⟩)
    · exact h1
    · have := congrArg Prod.fst e
      simp only at this
      omega
  · exact Or.inl

theorem Grown.anyChild_iff {z : Int} {w0 w : World} {P : Int → Int → Prop}
    (h : Grown z w0 w P) (a b : Int) : anyChild w z a b ↔ anyChild w0 z a b := by
  unfold anyChild
  simp only [h.present_src]

theorem Grown.after_makeTile {z : Int} {w0 w : World} {P : Int → Int → Prop}
    (h : Grown z w0 w P) (x y : Int) :
    Grown z w0 (makeTile w z x y) (fun a b => P a b ∨ (a = x ∧ b = y)) := by
  intro f
  rw [makeTile_files]
  by_cases hc0 : anyChild w z x y
  · have hc := (h.anyChild_iff x y).1 hc0
    rw [if_pos hc0]
    have key : f ∈ (z, fileName (half x) (half y)) :: w.files ↔
        f ∈ w0.files ∨ ∃ a b, (P a b ∨ (a = x ∧ b = y)) ∧ anyChild w0 z a b ∧
          f = (z, fileName (half a) (half b)) := by
      rw [List.mem_cons, h f]
      constructor
      · rintro (e | e | ⟨a, b, hp, ha, e⟩)
        · exact Or.inr ⟨x, y, Or.inr ⟨rfl, rfl⟩, hc, e⟩
        · exact Or.inl e
        · exact Or.inr ⟨a, b, Or.inl hp, ha, e⟩
      · rintro (e | ⟨a, b, hp | ⟨rfl, rfl⟩, ha, e⟩)
        · exact Or.inr (Or.inl e)
        · exact Or.inr (Or.inr ⟨a, b, hp, ha, e⟩)
        · exact Or.inl e
    split_ifs with hm
    · rw [← key, List.mem_cons]
      constructor
      · exact Or.inr
      · rintro (e | e)
        · rw [e]; exact hm
        · exact e
    · exact key
  · have hc : ¬ anyChild w0 z x y := fun c => hc0 ((h.anyChild_iff x y).2 c)
    rw [if_neg hc0, h f]
    constructor
    · rintro (e | ⟨a, b, hp, ha, e⟩)
      · exact Or.inl e
      · exact Or.inr ⟨a, b, Or.inl hp, ha, e⟩
    · rintro (e | ⟨a, b, hp | ⟨rfl, rfl⟩, ha, e⟩)
      · exact Or.inl e
      · exact Or.inr ⟨a, b, hp, ha, e⟩
      · exact absurd ha hc

theorem Grown.inner {z : Int} {w0 : World} (x : Int) (ys : List Int) :
    ∀ (w : World) (P : Int → Int → Prop), Grown z w0 w P →
      Grown z w0 (ys.foldl (fun w y => Maptorio.makeTile w z x y) w)
        (fun a b => P a b ∨ (a = x ∧ b ∈ ys)) := by
  induction ys with
  | nil =>
    intro w P h
    exact h.congr (by simp)
  | cons y ys ih =>
    intro w P h
    rw [List.foldl_cons]
    refine (ih _ _ (h.after_makeTile x y)).congr ?_
    intro a b
    simp only [List.mem_cons]
    constructor
    · rintro ((hp | ⟨rfl, rfl⟩) | ⟨rfl, hb⟩)
      · exact Or.inl hp
      · exact Or.inr ⟨rfl, Or.inl rfl⟩
      · exact Or.inr ⟨rfl, Or.inr hb⟩
    · rintro (hp | ⟨rfl, rfl | hb⟩)
      · exact Or.inl (Or.inl hp)
      · exact Or.inl (Or.inr ⟨rfl, rfl⟩)
      · exact Or.inr ⟨rfl, hb⟩

theorem Grown.outer {z : Int} {w0 : World} (xs ys : List Int) :
    ∀ (w : World) (P : Int → Int → Prop), Grown z w0 w P →
      Grown z w0
        (xs.foldl (fun w x => ys.foldl (fun w y => Maptorio.makeTile w z x y) w) w)
        (fun a b => P a b ∨ (a ∈ xs ∧ b ∈ ys)) := by
  induction xs with
  | nil =>
    intro w P h
    exact h.congr (by simp)
  | cons x xs ih =>
    intro w P h
    rw [List.foldl_cons]
    refine (ih _ _ (h.inner x ys)).congr ?_
    intro a b
    simp only [List.mem_cons]
    constructor
    · rintro ((hp | ⟨rfl, hb⟩) | ⟨ha, hb⟩)
      · exact Or.inl hp
      · exact Or.inr ⟨Or.inl rfl, hb⟩
      · exact Or.inr ⟨Or.inr ha, hb⟩
    · rintro (hp | ⟨rfl | ha, hb⟩)
      · exact Or.inl (Or.inl hp)
      · exact Or.inl (Or.inr ⟨rfl, hb⟩)
      · exact Or.inr ⟨ha, hb⟩

theorem Grown.start (z : Int) (w0 w : World) (h : w.files = w0.files) :
    Grown z w0 w (fun _ _ => False) := by
  intro f
  rw [h]
  simp

theorem levelLoop_grown (z : Int) (w0 w : World) (tl br : point) (h : w.files = w0.files) :
    Grown z w0 (levelLoop w z tl br)
      (fun a b => a ∈ loopValues tl.x br.x ∧ b ∈ loopValues tl.y br.y) := by
  unfold levelLoop
  exact (Grown.outer _ _ w _ (Grown.start z w0 w h)).congr (by simp)

/-! ## The log -/

theorem totals_append (a b : List Event) : totals (a ++ b) = totals a ++ totals b := by
  induction a with
  | nil => rfl
  | cons e es ih => cases e <;> simp [totals, ih]

theorem totals_tileEvents (z : Int) (new : List Event) (h : ∀ e ∈ new, tileEvent z e) :
    totals new = [] := by
  induction new with
  | nil => rfl
  | cons e es ih =>
    have he := h e (List.mem_cons_self _ _)
    have hes := ih (fun e he => h e (List.mem_cons_of_mem _ he))
    cases e <;> simp [tileEvent] at he <;> simp [totals, hes]

theorem Extends.rfl_ (Q : Event → Prop) (w : World) : Extends Q w w :=
  ⟨[], rfl, by simp⟩

theorem Extends.trans {Q : Event → Prop} {w w1 w2 : World} (h1 : Extends Q w w1)
    (h2 : Extends Q w1 w2) : Extends Q w w2 := by
  obtain ⟨n1, e1, q1⟩ := h1
  obtain ⟨n2, e2, q2⟩ := h2
  refine ⟨n2 ++ n1, by rw [e2, e1, List.append_assoc], ?_⟩
  intro e he
  rcases List.mem_append.1 he with h | h
  · exact q2 e h
  · exact q1 e h

theorem makeTile_extends (w : World) (z x y : Int) : Extends (tileEvent z) w (makeTile w z x y) := by
  unfold makeTile readImages readImage writeImage
  by_cases h1 : (z + 1, fileName x y) ∈ w.files <;>
  by_cases h2 : (z + 1, fileName (x + 1) y) ∈ w.files <;>
  by_cases h3 : (z + 1, fileName x (y + 1)) ∈ w.files <;>
  by_cases h4 : (z + 1, fileName (x + 1) (y + 1)) ∈ w.files <;>
  simp only [h1, h2, h3, h4, if_true, if_false, and_self, and_true, and_false, false_and,
    reduceCtorEq] <;>
  first
  | exact ⟨[Event.write z (half x) (half y), Event.read (z + 1) (x + 1) (y + 1),
      Event.read (z + 1) x (y + 1), Event.read (z + 1) (x + 1) y, Event.read (z + 1) x y],
      rfl, by simp [tileEvent]⟩
  | exact ⟨[Event.read (z + 1) (x + 1) (y + 1),
      Event.read (z + 1) x (y + 1), Event.read (z + 1) (x + 1) y, Event.read (z + 1) x y],
      rfl, by simp [tileEvent]⟩

theorem levelLoop_extends (w : World) (z : Int) (tl br : point) :
    Extends (tileEvent z) w (levelLoop w z tl br) := by
  unfold levelLoop
  have inner : ∀ (x : Int) (ys : List Int) (w : World),
      Extends (tileEvent z) w (ys.foldl (fun w y => makeTile w z x y) w) := by
    intro x ys
    induction ys with
    | nil => intro w; exact Extends.rfl_ _ w
    | cons y ys ih => intro w; exact (makeTile_extends w z x y).trans (ih _)
  generalize loopValues tl.x br.x = xs
  induction xs generalizing w with
  | nil => exact Extends.rfl_ _ w
  | cons x xs ih => exact (inner x _ w).trans (ih _)

theorem makeLevel_log (w : World) (z : Int) :
    ((makeLevel w z).1 = none ∧ (makeLevel w z).2.log = Event.glob (z + 1) :: w.log) ∨
    (∃ tl br new, (determineArea w (z + 1)).1 = some (tl, br) ∧
      (makeLevel w z).1 = some (decide (1 < levelTotal tl br)) ∧
      (makeLevel w z).2.log =
        new ++ Event.total z (levelTotal tl br) :: Event.glob (z + 1) :: w.log ∧
      ∀ e ∈ new, tileEvent z e) := by
  unfold makeLevel
  cases hd : (determineArea w (z + 1)).1 with
  | none =>
    left
    have e : determineArea w (z + 1) = (none, { w with log := Event.glob (z + 1) :: w.log }) := by
      unfold determineArea at hd ⊢
      simp only at hd ⊢
      rw [hd]
    rw [e]
    exact ⟨rfl, rfl⟩
  | some box =>
    right
    obtain ⟨tl, br⟩ := box
    have e : determineArea w (z + 1) =
        (some (tl, br), { w with log := Event.glob (z + 1) :: w.log }) := by
      unfold determineArea at hd ⊢
      simp only at hd ⊢
      rw [hd]
    rw [e]
    obtain ⟨new, hl, hq⟩ := levelLoop_extends
      { files := w.files, log := Event.total z (levelTotal tl br) :: Event.glob (z + 1) :: w.log }
      z tl br
    refine ⟨tl, br, new, rfl, ?_, ?_, hq⟩
    · simp only
      split_ifs with ht
      · have : decide (1 < levelTotal tl br) = false := by simp; omega
        rw [this]
      · have : decide (1 < levelTotal tl br) = true := by simp; omega
        rw [this]
    · simp only
      split_ifs <;> exact hl

/-- C3, the code at the failing input: for the level-1 tiles (0,0) and (2,0)
the box is (0,0)-(2,0), `total` is 0 and makeLevel reports no more levels,
though its loops enumerate two quads and it writes the two tiles (0,0) and
(1,0) of level 0. -/
theorem makeLevel_total_miscounts :
    (determineArea (tileWorld [(1, 0, 0), (1, 2, 0)]) 1).1
        = some ({ x := 0, y := 0 }, { x := 2, y := 0 }) ∧
      levelTotal { x := 0, y := 0 } { x := 2, y := 0 } = 0 ∧
      (makeLevel (tileWorld [(1, 0, 0), (1, 2, 0)]) 0).1 = some false ∧
      (loopValues 0 2).length * (loopValues 0 0).length = 2 ∧
      written (makeLevel (tileWorld [(1, 0, 0), (1, 2, 0)]) 0).2.log = [(0, 1, 0), (0, 0, 0)] ∧
      present (makeLevel (tileWorld [(1, 0, 0), (1, 2, 0)]) 0).2 0 0 0 ∧
      present (makeLevel (tileWorld [(1, 0, 0), (1, 2, 0)]) 0).2 0 1 0 := by
  set_option maxRecDepth 100000 in decide

/-! ## One level -/

theorem tilesOnly.mono {P Q : Int → Prop} {w : World} {z : Int} (h : tilesOnly P w z)
    (hPQ : ∀ n, P n → Q n) : tilesOnly Q w z := by
  intro f hf hz
  obtain ⟨x, y, hx, hy, e⟩ := h f hf hz
  exact ⟨x, y, hPQ x hx, hPQ y hy, e⟩

theorem isExact.toInt64 (n : Int) (h : isExact n) : isInt64 n := by
  unfold isExact at h
  unfold isInt64
  omega

theorem tilesOnly.of_present {P : Int → Prop} {w : World} {z : Int} (h : tilesOnly P w z)
    {x y : Int} (hp : present w z x y) : P x ∧ P y := by
  obtain ⟨a, b, ha, hb, e⟩ := h _ hp rfl
  obtain ⟨rfl, rfl⟩ := fileName_inj _ _ _ _ e
  exact ⟨ha, hb⟩

theorem tilesOnly_tileWorld (P : Int → Prop) (tiles : List (Int × Int × Int)) (z : Int)
    (h : ∀ t ∈ tiles, t.1 = z → P t.2.1 ∧ P t.2.2) : tilesOnly P (tileWorld tiles) z := by
  intro f hf hz
  simp only [tileWorld, List.mem_map] at hf
  obtain ⟨t, ht, rfl⟩ := hf
  exact ⟨t.2.1, t.2.2, (h t ht hz).1, (h t ht hz).2, rfl⟩

theorem present_tileWorld (tiles : List (Int × Int × Int)) (z x y : Int) :
    present (tileWorld tiles) z x y ↔ (z, x, y) ∈ tiles := by
  simp only [present, tileWorld, List.mem_map, Prod.mk.injEq]
  constructor
  · rintro ⟨⟨a, b, c⟩, ht, rfl, e⟩
    obtain ⟨rfl, rfl⟩ := fileName_inj _ _ _ _ e
    exact ht
  · intro h
    exact ⟨(z, x, y), h, rfl, rfl⟩

theorem not_present_tileWorld (tiles : List (Int × Int × Int)) (z : Int)
    (h : ∀ t ∈ tiles, t.1 ≠ z) (x y : Int) : ¬ present (tileWorld tiles) z x y := by
  rw [present_tileWorld]
  intro hm
  exact h _ hm rfl

/-- What `makeLevel` does to a level of tiles: the box, the result, and the
files it leaves. -/
theorem makeLevel_spec (w : World) (z : Int) (h : tilesOnly isInt64 w (z + 1)) :
    ∃ tl br w',
      determineArea w (z + 1) = (some (tl, br), { w with log := Event.glob (z + 1) :: w.log }) ∧
      IsMinOf tl.x 0 (fun a => ∃ x y, present w (z + 1) x y ∧ a = 2 * (x / 2)) ∧
      IsMinOf tl.y 0 (fun a => ∃ x y, present w (z + 1) x y ∧ a = 2 * (y / 2)) ∧
      IsMaxOf br.x 0 (fun a => ∃ x y, present w (z + 1) x y ∧ a = x) ∧
      IsMaxOf br.y 0 (fun a => ∃ x y, present w (z + 1) x y ∧ a = y) ∧
      makeLevel w z = (some (decide (1 < levelTotal tl br)), w') ∧
      totals w'.log = levelTotal tl br :: totals w.log ∧
      Grown z w w' (fun a b => a ∈ loopValues tl.x br.x ∧ b ∈ loopValues tl.y br.y) := by
  obtain ⟨tl, br, e, m1, m2, m3, m4⟩ := determineArea_spec w (z + 1) h
  have hd : (determineArea w (z + 1)).1 = some (tl, br) := by rw [e]
  rcases makeLevel_log w z with ⟨hn, _⟩ | ⟨tl1, br1, new, hd1, hr, hl, hq⟩
  · exfalso
    unfold makeLevel at hn
    rw [e] at hn
    simp only at hn
    split_ifs at hn
  · rw [hd] at hd1
    simp only [Option.some.injEq, Prod.mk.injEq] at hd1
    obtain ⟨rfl, rfl⟩ := hd1
    refine ⟨tl, br, (makeLevel w z).2, e, m1, m2, m3, m4, ?_, ?_, ?_⟩
    · rw [← hr]
    · rw [hl, totals_append, totals_tileEvents z new hq]
      rfl
    · have hg := levelLoop_grown z w
        { files := w.files,
          log := Event.total z (levelTotal tl br) :: Event.glob (z + 1) :: w.log }
        tl br rfl
      have e2 : (makeLevel w z).2 = levelLoop
          { files := w.files,
            log := Event.total z (levelTotal tl br) :: Event.glob (z + 1) :: w.log }
          z tl br := by
        unfold makeLevel
        rw [e]
        simp only
        split_ifs <;> rfl
      rw [e2]
      exact hg

/-- For a level of tiles that float64 holds exactly, the files `makeLevel`
leaves are the old ones and, for each present tile (x, y) of level z+1, its
parent (z, floor(x/2), floor(y/2)). -/
theorem makeLevel_exact (w : World) (z : Int) (hsrc : tilesOnly isExact w (z + 1)) :
    ∃ tl br w',
      determineArea w (z + 1) = (some (tl, br), { w with log := Event.glob (z + 1) :: w.log }) ∧
      IsMinOf tl.x 0 (fun a => ∃ x y, present w (z + 1) x y ∧ a = 2 * (x / 2)) ∧
      IsMinOf tl.y 0 (fun a => ∃ x y, present w (z + 1) x y ∧ a = 2 * (y / 2)) ∧
      IsMaxOf br.x 0 (fun a => ∃ x y, present w (z + 1) x y ∧ a = x) ∧
      IsMaxOf br.y 0 (fun a => ∃ x y, present w (z + 1) x y ∧ a = y) ∧
      makeLevel w z = (some (decide (1 < levelTotal tl br)), w') ∧
      totals w'.log = levelTotal tl br :: totals w.log ∧
      (∀ f, f ∈ w'.files ↔
        f ∈ w.files ∨ ∃ x y, present w (z + 1) x y ∧ f = (z, fileName (x / 2) (y / 2))) ∧
      (∀ cx cy, present w (z + 1) cx cy →
        2 * (cx / 2) ∈ loopValues tl.x br.x ∧ 2 * (cy / 2) ∈ loopValues tl.y br.y) := by
  obtain ⟨tl, br, w', e, m1, m2, m3, m4, hmk, htot, hg⟩ :=
    makeLevel_spec w z (hsrc.mono isExact.toInt64)
  have hex : ∀ {x y : Int}, present w (z + 1) x y → isExact x ∧ isExact y :=
    fun hp => hsrc.of_present hp
  have tlx : tl.x % 2 = 0 ∧ -(2 ^ 53) ≤ tl.x := by
    rcases m1.2.2 with h0 | ⟨x, y, hp, h0⟩
    · omega
    · have := (hex hp).1; unfold isExact at this; omega
  have tly : tl.y % 2 = 0 ∧ -(2 ^ 53) ≤ tl.y := by
    rcases m2.2.2 with h0 | ⟨x, y, hp, h0⟩
    · omega
    · have := (hex hp).2; unfold isExact at this; omega
  have brx : br.x ≤ 2 ^ 53 := by
    rcases m3.2.2 with h0 | ⟨x, y, hp, h0⟩
    · omega
    · have := (hex hp).1; unfold isExact at this; omega
  have bry : br.y ≤ 2 ^ 53 := by
    rcases m4.2.2 with h0 | ⟨x, y, hp, h0⟩
    · omega
    · have := (hex hp).2; unfold isExact at this; omega
  have quad : ∀ cx cy, present w (z + 1) cx cy →
      2 * (cx / 2) ∈ loopValues tl.x br.x ∧ 2 * (cy / 2) ∈ loopValues tl.y br.y := by
    intro cx cy hp
    have h1 := m1.2.1 _ ⟨cx, cy, hp, rfl⟩
    have h2 := m2.2.1 _ ⟨cx, cy, hp, rfl⟩
    have h3 := m3.2.1 _ ⟨cx, cy, hp, rfl⟩
    have h4 := m4.2.1 _ ⟨cx, cy, hp, rfl⟩
    rw [mem_loopValues, mem_loopValues]
    omega
  refine ⟨tl, br, w', e, m1, m2, m3, m4, hmk, htot, ?_, quad⟩
  intro f
  rw [hg f]
  apply or_congr Iff.rfl
  constructor
  · rintro ⟨a, b, ⟨ha, hb⟩, hc, rfl⟩
    rw [mem_loopValues] at ha hb
    have ea : half a = a / 2 := half_exact a (by omega) (by omega)
    have eb : half b = b / 2 := half_exact b (by omega) (by omega)
    rw [ea, eb]
    rcases hc with hp | hp | hp | hp
    · exact ⟨_, _, hp, rfl⟩
    · refine ⟨_, _, hp, ?_⟩
      have : (a + 1) / 2 = a / 2 := by omega
      rw [this]
    · refine ⟨_, _, hp, ?_⟩
      have : (b + 1) / 2 = b / 2 := by omega
      rw [this]
    · refine ⟨_, _, hp, ?_⟩
      have : (a + 1) / 2 = a / 2 := by omega
      have : (b + 1) / 2 = b / 2 := by omega
      simp only [*]
  · rintro ⟨x, y, hp, rfl⟩
    have hq := quad x y hp
    have ha := hq.1
    have hb := hq.2
    rw [mem_loopValues] at ha hb
    have ea : half (2 * (x / 2)) = x / 2 := by
      rw [half_exact _ (by omega) (by omega)]; omega
    have eb : half (2 * (y / 2)) = y / 2 := by
      rw [half_exact _ (by omega) (by omega)]; omega
    refine ⟨2 * (x / 2), 2 * (y / 2), hq, ?_, by rw [ea, eb]⟩
    unfold anyChild
    rcases Int.emod_two_eq x with hx | hx <;> rcases Int.emod_two_eq y with hy | hy
    · have e1 : 2 * (x / 2) = x := by omega
      have e2 : 2 * (y / 2) = y := by omega
      rw [e1, e2]; exact Or.inl hp
    · have e1 : 2 * (x / 2) = x := by omega
      have e2 : 2 * (y / 2) + 1 = y := by omega
      rw [e1, e2]; exact Or.inr (Or.inr (Or.inl hp))
    · have e1 : 2 * (x / 2) + 1 = x := by omega
      have e2 : 2 * (y / 2) = y := by omega
      rw [e1, e2]; exact Or.inr (Or.inl hp)
    · have e1 : 2 * (x / 2) + 1 = x := by omega
      have e2 : 2 * (y / 2) + 1 = y := by omega
      rw [e1, e2]; exact Or.inr (Or.inr (Or.inr hp))

theorem present_after {z : Int} {w w' : World}
    (h : ∀ f, f ∈ w'.files ↔
      f ∈ w.files ∨ ∃ x y, present w (z + 1) x y ∧ f = (z, fileName (x / 2) (y / 2)))
    (l a b : Int) :
    present w' l a b ↔
      present w l a b ∨ (l = z ∧ ∃ x y, present w (z + 1) x y ∧ a = x / 2 ∧ b = y / 2) := by
  unfold present at *
  rw [h]
  apply or_congr Iff.rfl
  constructor
  · rintro ⟨x, y, hp, e⟩
    simp only [Prod.mk.injEq] at e
    obtain ⟨rfl, e2⟩ := e
    obtain ⟨rfl, rfl⟩ := fileName_inj _ _ _ _ e2
    exact ⟨rfl, x, y, hp, rfl, rfl⟩
  · rintro ⟨rfl, x, y, hp, rfl, rfl⟩
    exact ⟨x, y, hp, rfl⟩

/-- C1: with no tile at level z beforehand and a level z+1 of tiles whose
coordinates float64 holds exactly, makeLevel returns, and afterwards the tile
(z, x, y) is present exactly when one of its four children (z+1, 2x, 2y),
(z+1, 2x+1, 2y), (z+1, 2x, 2y+1), (z+1, 2x+1, 2y+1) is, for every integer x and
y; level z+1 is untouched, and every present child lies in a quad the loops
over the box of determineArea enumerate. -/
theorem makeLevel_presence (w : World) (z : Int)
    (hsrc : tilesOnly isExact w (z + 1)) (hdst : ∀ x y, ¬ present w z x y) :
    ∃ tl br w1 w' b, determineArea w (z + 1) = (some (tl, br), w1) ∧
      makeLevel w z = (some b, w') ∧
      (∀ x y, present w' z x y ↔
        (present w' (z + 1) (2 * x) (2 * y) ∨ present w' (z + 1) (2 * x + 1) (2 * y) ∨
         present w' (z + 1) (2 * x) (2 * y + 1) ∨ present w' (z + 1) (2 * x + 1) (2 * y + 1))) ∧
      (∀ x y, present w' (z + 1) x y ↔ present w (z + 1) x y) ∧
      (∀ cx cy, present w (z + 1) cx cy →
        ∃ x ∈ loopValues tl.x br.x, ∃ y ∈ loopValues tl.y br.y,
          (cx = x ∨ cx = x + 1) ∧ (cy = y ∨ cy = y + 1)) := by
  obtain ⟨tl, br, w', e, _, _, _, _, hmk, _, hf, quad⟩ := makeLevel_exact w z hsrc
  have hsame : ∀ x y, present w' (z + 1) x y ↔ present w (z + 1) x y := by
    intro x y
    rw [present_after hf]
    constructor
    · rintro (h | ⟨h, _⟩)
      · exact h
      · omega
    · exact Or.inl
  refine ⟨tl, br, _, w', _, e, hmk, ?_, hsame, ?_⟩
  · intro X Y
    simp only [hsame]
    rw [present_after hf]
    constructor
    · rintro (h | ⟨_, x, y, hp, rfl, rfl⟩)
      · exact absurd h (hdst X Y)
      · rcases Int.emod_two_eq x with hx | hx <;> rcases Int.emod_two_eq y with hy | hy
        · have e1 : 2 * (x / 2) = x := by omega
          have e2 : 2 * (y / 2) = y := by omega
          rw [e1, e2]; exact Or.inl hp
        · have e1 : 2 * (x / 2) = x := by omega
          have e2 : 2 * (y / 2) + 1 = y := by omega
          rw [e1, e2]; exact Or.inr (Or.inr (Or.inl hp))
        · have e1 : 2 * (x / 2) + 1 = x := by omega
          have e2 : 2 * (y / 2) = y := by omega
          rw [e1, e2]; exact Or.inr (Or.inl hp)
        · have e1 : 2 * (x / 2) + 1 = x := by omega
          have e2 : 2 * (y / 2) + 1 = y := by omega
          rw [e1, e2]; exact Or.inr (Or.inr (Or.inr hp))
    · intro hc
      right
      refine ⟨rfl, ?_⟩
      rcases hc with hp | hp | hp | hp
      · exact ⟨_, _, hp, by omega, by omega⟩
      · exact ⟨_, _, hp, by omega, by omega⟩
      · exact ⟨_, _, hp, by omega, by omega⟩
      · exact ⟨_, _, hp, by omega, by omega⟩
  · intro cx cy hp
    obtain ⟨q1, q2⟩ := quad cx cy hp
    exact ⟨_, q1, _, q2, by omega, by omega⟩

/-- C1 at the level-1 tiles (4,4), (5,4) and (-3,-1), for z = 0. -/
theorem makeLevel_presence_witness :
    ∃ tl br w1 w' b,
      determineArea (tileWorld [(1, 4, 4), (1, 5, 4), (1, -3, -1)]) (0 + 1) = (some (tl, br), w1) ∧
      makeLevel (tileWorld [(1, 4, 4), (1, 5, 4), (1, -3, -1)]) 0 = (some b, w') ∧
      (∀ x y, present w' 0 x y ↔
        (present w' (0 + 1) (2 * x) (2 * y) ∨ present w' (0 + 1) (2 * x + 1) (2 * y) ∨
         present w' (0 + 1) (2 * x) (2 * y + 1) ∨
         present w' (0 + 1) (2 * x + 1) (2 * y + 1))) ∧
      (∀ x y, present w' (0 + 1) x y ↔
        present (tileWorld [(1, 4, 4), (1, 5, 4), (1, -3, -1)]) (0 + 1) x y) ∧
      (∀ cx cy, present (tileWorld [(1, 4, 4), (1, 5, 4), (1, -3, -1)]) (0 + 1) cx cy →
        ∃ x ∈ loopValues tl.x br.x, ∃ y ∈ loopValues tl.y br.y,
          (cx = x ∨ cx = x + 1) ∧ (cy = y ∨ cy = y + 1)) :=
  makeLevel_presence (tileWorld [(1, 4, 4), (1, 5, 4), (1, -3, -1)]) 0
    (tilesOnly_tileWorld _ _ _ (by decide)) (not_present_tileWorld _ _ (by decide))

/-! ## The level loop -/

theorem renderLoop_succ (n : Nat) (w w1 : World) (b : Bool)
    (h : makeLevel w (n : Int) = (some b, w1)) :
    renderLoop (n + 1) w = if b then renderLoop n w1 else (true, w1) := by
  rw [renderLoop, h]

theorem single_step (w : World) (z x y : Int) (hs : single w (z + 1) x y)
    (hx : isExact x) (hy : isExact y) :
    ∃ w1, makeLevel w z = (some (decide (1 < boxTotal x y)), w1) ∧
      single w1 z (x / 2) (y / 2) ∧ totals w1.log = boxTotal x y :: totals w.log := by
  obtain ⟨hp, hlev, honly⟩ := hs
  have hsrc : tilesOnly isExact w (z + 1) := fun f hf hz => ⟨x, y, hx, hy, honly f hf hz⟩
  have huniq : ∀ a b, present w (z + 1) a b → a = x ∧ b = y := fun a b hab =>
    fileName_inj _ _ _ _ (honly _ hab rfl)
  obtain ⟨tl, br, w1, _, m1, m2, m3, m4, hmk, htot, hf, _⟩ := makeLevel_exact w z hsrc
  have e1 : tl.x = Min.min 0 (2 * (x / 2)) := by
    have h1 := m1.1
    have h2 := m1.2.1 _ ⟨x, y, hp, rfl⟩
    rcases m1.2.2 with h3 | ⟨a, b, hab, h3⟩
    · omega
    · rw [(huniq a b hab).1] at h3; omega
  have e2 : tl.y = Min.min 0 (2 * (y / 2)) := by
    have h1 := m2.1
    have h2 := m2.2.1 _ ⟨x, y, hp, rfl⟩
    rcases m2.2.2 with h3 | ⟨a, b, hab, h3⟩
    · omega
    · rw [(huniq a b hab).2] at h3; omega
  have e3 : br.x = Max.max 0 x := by
    have h1 := m3.1
    have h2 := m3.2.1 _ ⟨x, y, hp, rfl⟩
    rcases m3.2.2 with h3 | ⟨a, b, hab, h3⟩
    · omega
    · rw [(huniq a b hab).1] at h3; omega
  have e4 : br.y = Max.max 0 y := by
    have h1 := m4.1
    have h2 := m4.2.1 _ ⟨x, y, hp, rfl⟩
    rcases m4.2.2 with h3 | ⟨a, b, hab, h3⟩
    · omega
    · rw [(huniq a b hab).2] at h3; omega
  have eT : levelTotal tl br = boxTotal x y := by
    cases tl; cases br
    simp only at e1 e2 e3 e4
    unfold boxTotal
    rw [e1, e2, e3, e4]
  rw [eT] at hmk htot
  refine ⟨w1, hmk, ⟨?_, ?_, ?_⟩, htot⟩
  · exact (hf _).2 (Or.inr ⟨x, y, hp, rfl⟩)
  · intro f hf1
    rcases (hf f).1 hf1 with h | ⟨a, b, _, rfl⟩
    · have := hlev f h; omega
    · exact le_refl _
  · intro f hf1 hz
    rcases (hf f).1 hf1 with h | ⟨a, b, hab, rfl⟩
    · have := hlev f h; omega
    · obtain ⟨rfl, rfl⟩ := huniq a b hab
      rfl

theorem renderLoop_single (n : Nat) : ∀ (w : World) (x y : Int), single w (n : Int) x y →
    isExact x → isExact y → (∀ k < n, 1 < boxTotal (halves k x) (halves k y)) →
    (renderLoop n w).1 = true ∧
      ∃ ts, totals (renderLoop n w).2.log = ts ++ totals w.log ∧ ts.length = n ∧
        ∀ t ∈ ts, 1 < t := by
  induction n with
  | zero =>
    intro w x y _ _ _ _
    exact ⟨rfl, [], rfl, rfl, by simp⟩
  | succ n ih =>
    intro w x y hs hx hy hk
    have hs' : single w ((n : Int) + 1) x y := by
      have : ((n + 1 : Nat) : Int) = (n : Int) + 1 := by push_cast; rfl
      rw [← this]; exact hs
    obtain ⟨w1, hmk, hs1, htot⟩ := single_step w n x y hs' hx hy
    have h0 : 1 < boxTotal x y := by
      exact hk 0 (Nat.succ_pos n)
    have hb : decide (1 < boxTotal x y) = true := by simpa using h0
    rw [hb] at hmk
    rw [renderLoop_succ n w w1 true hmk]
    simp only [if_true]
    have hx1 : isExact (x / 2) := by unfold isExact at hx ⊢; omega
    have hy1 : isExact (y / 2) := by unfold isExact at hy ⊢; omega
    have hk1 : ∀ k < n, 1 < boxTotal (halves k (x / 2)) (halves k (y / 2)) :=
      fun k hkn => hk (k + 1) (Nat.succ_lt_succ hkn)
    obtain ⟨hr, ts, hts, hlen, hall⟩ := ih w1 (x / 2) (y / 2) hs1 hx1 hy1 hk1
    refine ⟨hr, ts ++ [boxTotal x y], ?_, by simp [hlen], ?_⟩
    · rw [hts, htot]; simp
    · intro t ht
      rcases List.mem_append.1 ht with h | h
      · exact hall t h
      · rw [List.mem_singleton] at h
        rw [h]; exact h0

theorem single_tileWorld (n x y : Int) : single (tileWorld [(n, x, y)]) n x y := by
  refine ⟨?_, ?_, ?_⟩
  · rw [present_tileWorld]; exact List.mem_singleton.2 rfl
  · intro f hf
    simp only [tileWorld, List.map_cons, List.map_nil, List.mem_singleton] at hf
    rw [hf]
  · intro f hf _
    simp only [tileWorld, List.map_cons, List.map_nil, List.mem_singleton] at hf
    rw [hf]

/-- C4, a leaf set for which no iteration has total <= 1: with the one leaf
tile (-1025, -1) at level 10, Render runs all ten levels and every one of the
ten totals is above 1. -/
theorem Render_never_single :
    (Render (tileWorld [(10, -1025, -1)])).1 = true ∧
      ∃ ts, totals (Render (tileWorld [(10, -1025, -1)])).2.log = ts ∧ ts.length = 10 ∧
        ∀ t ∈ ts, 1 < t := by
  have h := renderLoop_single 10 (tileWorld [(10, -1025, -1)]) (-1025) (-1)
    (single_tileWorld _ _ _) (by decide) (by decide) (by decide)
  obtain ⟨h1, ts, h2, h3, h4⟩ := h
  refine ⟨h1, ts, ?_, h3, h4⟩
  rw [Render, h2]
  simp [tileWorld, totals]

theorem inRange.exact {n : Nat} (hn : n ≤ 53) {c : Int} (h : inRange n c) : isExact c := by
  unfold inRange at h
  unfold isExact
  have h2 : (2 : Int) ^ n ≤ 2 ^ 53 := by
    exact_mod_cast Nat.pow_le_pow_right (by decide : 0 < 2) hn
  have h3 : (0 : Int) < 2 ^ n := by positivity
  omega

theorem inRange.halve {n : Nat} {c : Int} (h : inRange (n + 1) c) : inRange n (c / 2) := by
  unfold inRange at h ⊢
  rw [pow_succ] at h
  generalize (2 : Int) ^ n = P at h ⊢
  omega

theorem levelTotal_small (tl br : point) (h1 : tl.x = -2 ∨ tl.x = 0) (h2 : tl.y = -2 ∨ tl.y = 0)
    (h3 : br.x = 0) (h4 : br.y = 0) : levelTotal tl br ≤ 1 := by
  cases tl; cases br
  simp only at h1 h2 h3 h4
  subst h3 h4
  rcases h1 with rfl | rfl <;> rcases h2 with rfl | rfl <;> decide

theorem range_step (n : Nat) (hn : n + 1 ≤ 53) (w : World)
    (hsrc : tilesOnly (inRange (n + 1)) w ((n : Int) + 1))
    (hlev : ∀ f ∈ w.files, (n : Int) + 1 ≤ f.1) :
    ∃ tl br w1, makeLevel w n = (some (decide (1 < levelTotal tl br)), w1) ∧
      totals w1.log = levelTotal tl br :: totals w.log ∧
      (n = 0 → levelTotal tl br ≤ 1) ∧
      tilesOnly (inRange n) w1 n ∧ ∀ f ∈ w1.files, (n : Int) ≤ f.1 := by
  obtain ⟨tl, br, w1, _, m1, m2, m3, m4, hmk, htot, hf, _⟩ :=
    makeLevel_exact w n (hsrc.mono (fun c hc => hc.exact hn))
  refine ⟨tl, br, w1, hmk, htot, ?_, ?_, ?_⟩
  · intro h0
    subst h0
    have hr : ∀ {x y : Int}, present w ((0 : Nat) + 1 : Int) x y →
        (-2 ≤ x ∧ x ≤ 0) ∧ (-2 ≤ y ∧ y ≤ 0) := by
      intro x y hp
      have := hsrc.of_present hp
      unfold inRange at this
      constructor <;> omega
    apply levelTotal_small
    · have := m1.1
      rcases m1.2.2 with h | ⟨x, y, hp, h⟩
      · omega
      · have := (hr hp).1; omega
    · have := m2.1
      rcases m2.2.2 with h | ⟨x, y, hp, h⟩
      · omega
      · have := (hr hp).2; omega
    · have := m3.1
      rcases m3.2.2 with h | ⟨x, y, hp, h⟩
      · omega
      · have := (hr hp).1; omega
    · have := m4.1
      rcases m4.2.2 with h | ⟨x, y, hp, h⟩
      · omega
      · have := (hr hp).2; omega
  · intro f hf1 hz
    rcases (hf f).1 hf1 with h | ⟨x, y, hp, rfl⟩
    · have := hlev f h; omega
    · have := hsrc.of_present hp
      exact ⟨_, _, this.1.halve, this.2.halve, rfl⟩
  · intro f hf1
    rcases (hf f).1 hf1 with h | ⟨x, y, hp, rfl⟩
    · have := hlev f h; omega
    · exact le_refl _

theorem renderLoop_reaches (n : Nat) : ∀ (w : World), n + 1 ≤ 53 →
    tilesOnly (inRange (n + 1)) w ((n : Int) + 1) → (∀ f ∈ w.files, (n : Int) + 1 ≤ f.1) →
    (renderLoop (n + 1) w).1 = true ∧
      ∃ ts, totals (renderLoop (n + 1) w).2.log = ts ++ totals w.log ∧
        1 ≤ ts.length ∧ ts.length ≤ n + 1 ∧ ∃ t ∈ ts, t ≤ 1 := by
  induction n with
  | zero =>
    intro w hn hsrc hlev
    obtain ⟨tl, br, w1, hmk, htot, h0, _, _⟩ := range_step 0 hn w hsrc hlev
    have hb : decide (1 < levelTotal tl br) = false := by
      have := h0 rfl
      simp only [decide_eq_false_iff_not]; omega
    rw [hb] at hmk
    rw [renderLoop_succ 0 w w1 false hmk]
    simp only [Bool.false_eq_true, if_false]
    exact ⟨trivial, [levelTotal tl br], by rw [htot]; rfl, by simp, by simp,
      _, List.mem_singleton.2 rfl, h0 rfl⟩
  | succ n ih =>
    intro w hn hsrc hlev
    obtain ⟨tl, br, w1, hmk, htot, _, hsrc1, hlev1⟩ :=
      range_step (n + 1) hn w hsrc hlev
    rw [renderLoop_succ (n + 1) w w1 _ hmk]
    by_cases ht : 1 < levelTotal tl br
    · rw [decide_eq_true ht]
      simp only [if_true]
      have c1 : ((n + 1 : Nat) : Int) = (n : Int) + 1 := by push_cast; rfl
      rw [c1] at hsrc1 hlev1
      obtain ⟨hr, ts, hts, hl1, hl2, t, htm, ht1⟩ := ih w1 (by omega) hsrc1 hlev1
      refine ⟨hr, ts ++ [levelTotal tl br], ?_, by simp, by simp; omega,
        t, List.mem_append_left _ htm, ht1⟩
      rw [hts, htot]; simp
    · rw [decide_eq_false ht]
      simp only [Bool.false_eq_true, if_false]
      exact ⟨trivial, [levelTotal tl br], by rw [htot]; rfl, by simp, by simp,
        _, List.mem_singleton.2 rfl, by omega⟩

/-- C4 as amended: for a directory with no file below level 10 whose leaf
tiles, at level 10, have coordinates from -1024 to 511, Render returns and
its level loop reaches, within at most 10 iterations, an iteration whose
`total` is at most 1. -/
theorem Render_reaches_single (w : World)
    (hleaf : tilesOnly (fun c => -1024 ≤ c ∧ c ≤ 511) w 10)
    (hclean : ∀ f ∈ w.files, 10 ≤ f.1) :
    (Render w).1 = true ∧
      ∃ ts, totals (Render w).2.log = ts ++ totals w.log ∧
        1 ≤ ts.length ∧ ts.length ≤ 10 ∧ ∃ t ∈ ts, t ≤ 1 := by
  have h1 : tilesOnly (inRange (9 + 1)) w (((9 : Nat) : Int) + 1) := by
    refine tilesOnly.mono (show tilesOnly _ w 10 from hleaf) ?_
    intro c hc
    unfold inRange
    norm_num
    omega
  exact renderLoop_reaches 9 w (by decide) h1 hclean

/-- C4 as amended, at the leaf tiles (-1024, 511), (100, -7) and (0, 3). -/
theorem Render_reaches_single_witness :
    (Render (tileWorld [(10, -1024, 511), (10, 100, -7), (10, 0, 3)])).1 = true ∧
      ∃ ts, totals (Render (tileWorld [(10, -1024, 511), (10, 100, -7), (10, 0, 3)])).2.log
          = ts ++ totals (tileWorld [(10, -1024, 511), (10, 100, -7), (10, 0, 3)]).log ∧
        1 ≤ ts.length ∧ ts.length ≤ 10 ∧ ∃ t ∈ ts, t ≤ 1 :=
  Render_reaches_single (tileWorld [(10, -1024, 511), (10, 100, -7), (10, 0, 3)])
    (tilesOnly_tileWorld _ _ _ (by decide)) (by decide)

/-! ## float64 keeps the order -/

theorem dropBits_spec (fuel : Nat) : ∀ m : Nat, m < 2 ^ (53 + fuel) →
    m < 2 ^ (53 + dropBits fuel m) ∧ (0 < dropBits fuel m → 2 ^ (52 + dropBits fuel m) ≤ m) := by
  induction fuel with
  | zero =>
    intro m h
    exact ⟨h, fun h0 => absurd h0 (by simp [dropBits])⟩
  | succ k ih =>
    intro m h
    unfold dropBits
    split_ifs with hm
    · exact ⟨hm, fun h0 => absurd h0 (by simp)⟩
    · have h2 : m / 2 < 2 ^ (53 + k) := by
        have : 2 ^ (53 + (k + 1)) = 2 * 2 ^ (53 + k) := by rw [← Nat.add_assoc, pow_succ]; ring
        omega
      obtain ⟨a, b⟩ := ih (m / 2) h2
      generalize dropBits k (m / 2) = e at a b ⊢
      have e1 : 2 ^ (53 + (e + 1)) = 2 * 2 ^ (53 + e) := by rw [← Nat.add_assoc, pow_succ]; ring
      have e2 : 2 ^ (52 + (e + 1)) = 2 * 2 ^ (52 + e) := by rw [← Nat.add_assoc, pow_succ]; ring
      refine ⟨by omega, fun _ => ?_⟩
      rcases Nat.eq_zero_or_pos e with h0 | h0
      · subst h0
        simp only [Nat.zero_add, Nat.add_zero] at *
        omega
      · have := b h0
        omega

theorem dropBits_self (m : Nat) :
    m < 2 ^ 53 * 2 ^ dropBits m m ∧ (0 < dropBits m m → 2 ^ 52 * 2 ^ dropBits m m ≤ m) := by
  have h : m < 2 ^ (53 + m) :=
    lt_of_lt_of_le (Nat.lt_two_pow m) (Nat.pow_le_pow_right (by decide) (by omega))
  have := dropBits_spec m m h
  rw [pow_add, pow_add] at this
  exact this

/-- The rounded magnitude lies between its two neighbours whose dropped bits
are zero. -/
theorem roundNat_bounds (m : Nat) :
    m / 2 ^ dropBits m m * 2 ^ dropBits m m ≤ roundNat m ∧
      roundNat m ≤ (m / 2 ^ dropBits m m + 1) * 2 ^ dropBits m m := by
  unfold roundNat
  simp only
  generalize 2 ^ dropBits m m = P
  have : m / P * P ≤ (m / P + 1) * P := Nat.mul_le_mul_right _ (Nat.le_succ _)
  split_ifs <;> constructor <;> first | exact le_refl _ | exact this

theorem roundNat_eq (m e : Nat) (h : dropBits m m = e) :
    roundNat m =
      if 2 * (m % 2 ^ e) < 2 ^ e then m / 2 ^ e * 2 ^ e
      else if 2 ^ e < 2 * (m % 2 ^ e) then (m / 2 ^ e + 1) * 2 ^ e
      else if m / 2 ^ e % 2 = 0 then m / 2 ^ e * 2 ^ e
      else (m / 2 ^ e + 1) * 2 ^ e := by
  subst h
  rfl

theorem roundNat_same (m n : Nat) (hmn : m ≤ n) (he : dropBits m m = dropBits n n) :
    roundNat m ≤ roundNat n := by
  have bm := roundNat_bounds m
  have bn := roundNat_bounds n
  rw [he] at bm
  rw [roundNat_eq m _ he, roundNat_eq n _ rfl] at *
  generalize hP : 2 ^ dropBits n n = P at *
  have hPpos : 0 < P := by rw [← hP]; positivity
  have hq : m / P ≤ n / P := Nat.div_le_div_right hmn
  rcases Nat.lt_or_eq_of_le hq with hlt | heq
  · -- different quotients
    have h1 : (m / P + 1) * P ≤ n / P * P := Nat.mul_le_mul_right _ hlt
    exact le_trans bm.2 (le_trans h1 bn.1)
  · -- same quotient: the remainders decide
    have dm := Nat.div_add_mod m P
    have dn := Nat.div_add_mod n P
    rw [heq] at dm
    have hr : m % P ≤ n % P := by omega
    rw [heq]
    have hstep : n / P * P ≤ (n / P + 1) * P := Nat.mul_le_mul_right _ (Nat.le_succ _)
    generalize n / P * P = A at *
    generalize (n / P + 1) * P = B at *
    split_ifs <;> omega

theorem roundNat_mono (m n : Nat) (hmn : m ≤ n) : roundNat m ≤ roundNat n := by
  rcases Nat.lt_trichotomy (dropBits m m) (dropBits n n) with h | h | h
  · -- n has more dropped bits: a power of two lies between
    have sm := dropBits_self m
    have sn := dropBits_self n
    have bm := (roundNat_bounds m).2
    have bn := (roundNat_bounds n).1
    generalize dropBits m m = em at *
    generalize dropBits n n = en at *
    have hqm : m / 2 ^ em < 2 ^ 53 := by
      apply Nat.div_lt_of_lt_mul
      rw [Nat.mul_comm]; exact sm.1
    have hqn : 2 ^ 52 ≤ n / 2 ^ en := by
      rw [Nat.le_div_iff_mul_le (by positivity)]
      exact sn.2 (by omega)
    have h1 : (m / 2 ^ em + 1) * 2 ^ em ≤ 2 ^ 53 * 2 ^ em := Nat.mul_le_mul_right _ hqm
    have h2 : 2 ^ 52 * 2 ^ en ≤ n / 2 ^ en * 2 ^ en := Nat.mul_le_mul_right _ hqn
    have h3 : 2 ^ 53 * 2 ^ em ≤ 2 ^ 52 * 2 ^ en := by
      have : 2 ^ (em + 1) ≤ 2 ^ en := Nat.pow_le_pow_right (by decide) h
      rw [pow_succ] at this
      omega
    omega
  · exact roundNat_same m n hmn h
  · exfalso
    have sm := dropBits_self m
    have sn := dropBits_self n
    generalize dropBits m m = em at *
    generalize dropBits n n = en at *
    have h1 := sm.2 (by omega)
    have h3 : 2 ^ 53 * 2 ^ en ≤ 2 ^ 52 * 2 ^ em := by
      have : 2 ^ (en + 1) ≤ 2 ^ em := Nat.pow_le_pow_right (by decide) h
      rw [pow_succ] at this
      omega
    omega

theorem float64_nonneg (n : Int) (h : 0 ≤ n) : 0 ≤ float64 n := by
  unfold float64
  rw [if_neg (by omega)]
  exact Int.ofNat_nonneg _

theorem float64_mono (a b : Int) (h : a ≤ b) : float64 a ≤ float64 b := by
  unfold float64
  split_ifs with ha hb hb
  · have := roundNat_mono b.natAbs a.natAbs (by omega)
    omega
  · have h1 : (0 : Int) ≤ (roundNat a.natAbs : Int) := Int.ofNat_nonneg _
    have h2 : (0 : Int) ≤ (roundNat b.natAbs : Int) := Int.ofNat_nonneg _
    omega
  · omega
  · have := roundNat_mono a.natAbs b.natAbs (by omega)
    omega

theorem levelTotal_mono (tl1 br1 tl2 br2 : point)
    (hx0 : 0 ≤ br1.x - tl1.x) (hy0 : 0 ≤ br1.y - tl1.y)
    (hx : br1.x - tl1.x ≤ br2.x - tl2.x) (hy : br1.y - tl1.y ≤ br2.y - tl2.y) :
    levelTotal tl1 br1 ≤ levelTotal tl2 br2 := by
  unfold levelTotal fmul
  simp only
  apply float64_mono
  have a0 := float64_nonneg _ hx0
  have b0 := float64_nonneg _ hy0
  have a1 := float64_mono _ _ hx
  have b1 := float64_mono _ _ hy
  have c0 : 0 ≤ ceilHalf (float64 (br1.x - tl1.x)) := by unfold ceilHalf; omega
  have d0 : 0 ≤ ceilHalf (float64 (br1.y - tl1.y)) := by unfold ceilHalf; omega
  have c1 : ceilHalf (float64 (br1.x - tl1.x)) ≤ ceilHalf (float64 (br2.x - tl2.x)) := by
    unfold ceilHalf; omega
  have d1 : ceilHalf (float64 (br1.y - tl1.y)) ≤ ceilHalf (float64 (br2.y - tl2.y)) := by
    unfold ceilHalf; omega
  exact mul_le_mul c1 d1 d0 (le_trans c0 c1)

/-- C5: for a level z+2 of tiles with coordinates of at most 2^31 in size and an
empty level z+1, the iteration makeLevel(z+1) that writes level z+1 and the next
one, makeLevel(z), that reads it both return, and the `total` the later one
computes from its box is at most the one the earlier computed; both totals fit
a 64-bit int. -/
theorem totals_do_not_grow (w : World) (z : Int)
    (hsrc : tilesOnly isModest w (z + 1 + 1)) (hclean : ∀ f ∈ w.files, f.1 ≠ z + 1) :
    ∃ tl2 br2 w0 b1 w1 tl1 br1 w1' b2 w2,
      determineArea w (z + 1 + 1) = (some (tl2, br2), w0) ∧
      makeLevel w (z + 1) = (some b1, w1) ∧
      determineArea w1 (z + 1) = (some (tl1, br1), w1') ∧
      makeLevel w1 z = (some b2, w2) ∧
      totals w2.log = levelTotal tl1 br1 :: levelTotal tl2 br2 :: totals w.log ∧
      levelTotal tl1 br1 ≤ levelTotal tl2 br2 ∧
      0 ≤ levelTotal tl1 br1 ∧ levelTotal tl2 br2 < 2 ^ 63 := by
  have hsrc0 : tilesOnly isExact w (z + 1 + 1) := by
    refine hsrc.mono ?_
    intro n hn
    unfold isModest at hn
    unfold isExact
    omega
  obtain ⟨tl2, br2, w1, e2, m1, m2, m3, m4, hmk2, htot2, hf2, _⟩ :=
    makeLevel_exact w (z + 1) hsrc0
  -- the tiles of level z+1 are the parents of those of level z+2
  have hpar : ∀ a b, present w1 (z + 1) a b →
      ∃ x y, present w (z + 1 + 1) x y ∧ a = x / 2 ∧ b = y / 2 := by
    intro a b hp
    rcases (present_after hf2 _ _ _).1 hp with h | ⟨_, h⟩
    · exact absurd rfl (hclean _ h)
    · exact h
  have hsrc1 : tilesOnly isExact w1 (z + 1) := by
    intro f hf hz
    rcases (hf2 f).1 hf with h | ⟨x, y, hp, rfl⟩
    · exact absurd hz (hclean f h)
    · have := hsrc0.of_present hp
      unfold isExact at this ⊢
      exact ⟨_, _, by omega, by omega, rfl⟩
  obtain ⟨tl1, br1, w2, e1, n1, n2, n3, n4, hmk1, htot1, _, _⟩ :=
    makeLevel_exact w1 z hsrc1
  have ex : tl2.x % 2 = 0 := by
    rcases m1.2.2 with h | ⟨_, _, _, h⟩ <;> omega
  have ey : tl2.y % 2 = 0 := by
    rcases m2.2.2 with h | ⟨_, _, _, h⟩ <;> omega
  have t1 := m1.1
  have t2 := m2.1
  have t3 := m3.1
  have t4 := m4.1
  have s1 := n1.1
  have s2 := n2.1
  have s3 := n3.1
  have s4 := n4.1
  refine ⟨tl2, br2, _, _, w1, tl1, br1, _, _, w2, e2, hmk2, e1, hmk1, ?_, ?_, ?_, ?_⟩
  · rw [htot1, htot2]
  · -- the box of level z+1 is no wider and no higher than that of level z+2
    have ax : 2 * (tl2.x / 2 / 2) ≤ tl1.x := by
      rcases n1.2.2 with h | ⟨a, b, hp, h⟩
      · have := m1.1; omega
      · obtain ⟨x, y, hxy, rfl, rfl⟩ := hpar a b hp
        have := m1.2.1 _ ⟨x, y, hxy, rfl⟩
        omega
    have ay : 2 * (tl2.y / 2 / 2) ≤ tl1.y := by
      rcases n2.2.2 with h | ⟨a, b, hp, h⟩
      · have := m2.1; omega
      · obtain ⟨x, y, hxy, rfl, rfl⟩ := hpar a b hp
        have := m2.2.1 _ ⟨x, y, hxy, rfl⟩
        omega
    have bx : br1.x ≤ br2.x / 2 := by
      rcases n3.2.2 with h | ⟨a, b, hp, h⟩
      · have := m3.1; omega
      · obtain ⟨x, y, hxy, rfl, rfl⟩ := hpar a b hp
        have := m3.2.1 _ ⟨x, y, hxy, rfl⟩
        omega
    have by_ : br1.y ≤ br2.y / 2 := by
      rcases n4.2.2 with h | ⟨a, b, hp, h⟩
      · have := m4.1; omega
      · obtain ⟨x, y, hxy, rfl, rfl⟩ := hpar a b hp
        have := m4.2.1 _ ⟨x, y, hxy, rfl⟩
        omega
    apply levelTotal_mono <;> omega
  · have h0 : levelTotal { x := 0, y := 0 } { x := 0, y := 0 } = 0 := by decide
    rw [← h0]
    apply levelTotal_mono <;> omega
  · have hm : ∀ {x y : Int}, present w (z + 1 + 1) x y → isModest x ∧ isModest y :=
      fun hp => hsrc.of_present hp
    have b1 : -(2 ^ 31) ≤ tl2.x := by
      rcases m1.2.2 with h | ⟨x, y, hp, h⟩
      · omega
      · have := (hm hp).1; unfold isModest at this; omega
    have b2 : -(2 ^ 31) ≤ tl2.y := by
      rcases m2.2.2 with h | ⟨x, y, hp, h⟩
      · omega
      · have := (hm hp).2; unfold isModest at this; omega
    have b3 : br2.x ≤ 2 ^ 31 := by
      rcases m3.2.2 with h | ⟨x, y, hp, h⟩
      · omega
      · have := (hm hp).1; unfold isModest at this; omega
    have b4 : br2.y ≤ 2 ^ 31 := by
      rcases m4.2.2 with h | ⟨x, y, hp, h⟩
      · omega
      · have := (hm hp).2; unfold isModest at this; omega
    have h62 : levelTotal { x := 0, y := 0 } { x := 2 ^ 32, y := 2 ^ 32 } = 2 ^ 62 := by decide
    have : levelTotal tl2 br2 ≤ levelTotal { x := 0, y := 0 } { x := 2 ^ 32, y := 2 ^ 32 } := by
      apply levelTotal_mono <;> first | omega | (simp only; omega)
    rw [h62] at this
    omega

/-- C5 at the level-2 tiles (-3,-3) and (5,5), for z = 0. -/
theorem totals_do_not_grow_witness :
    ∃ tl2 br2 w0 b1 w1 tl1 br1 w1' b2 w2,
      determineArea (tileWorld [(2, -3, -3), (2, 5, 5)]) (0 + 1 + 1) = (some (tl2, br2), w0) ∧
      makeLevel (tileWorld [(2, -3, -3), (2, 5, 5)]) (0 + 1) = (some b1, w1) ∧
      determineArea w1 (0 + 1) = (some (tl1, br1), w1') ∧
      makeLevel w1 0 = (some b2, w2) ∧
      totals w2.log = levelTotal tl1 br1 :: levelTotal tl2 br2 ::
        totals (tileWorld [(2, -3, -3), (2, 5, 5)]).log ∧
      levelTotal tl1 br1 ≤ levelTotal tl2 br2 ∧
      0 ≤ levelTotal tl1 br1 ∧ levelTotal tl2 br2 < 2 ^ 63 :=
  totals_do_not_grow (tileWorld [(2, -3, -3), (2, 5, 5)]) 0
    (tilesOnly_tileWorld _ _ _ (by decide)) (by decide)

/-! ## The box of `determineArea` -/

/-- C6: for a level whose files are all tile files `<x>x<y>.jpg` with x and y
64-bit ints, negative ones included, determineArea returns a box whose
top-left corner has even coordinates and which holds every tile of the level;
and n - abs(n % 2), with the remainder of Go, is the greatest even number that
is at most n, so -4 for n = -3. -/
theorem determineArea_contains (w : World) (z : Int) (h : tilesOnly isInt64 w z) :
    ∃ tl br w1, determineArea w z = (some (tl, br), w1) ∧
      tl.x % 2 = 0 ∧ tl.y % 2 = 0 ∧
      (∀ x y, present w z x y → tl.x ≤ x ∧ x ≤ br.x ∧ tl.y ≤ y ∧ y ≤ br.y) ∧
      (∀ n : Int, (n - Maptorio.abs (Int.tmod n 2)) % 2 = 0 ∧
        n - Maptorio.abs (Int.tmod n 2) ≤ n ∧ n < n - Maptorio.abs (Int.tmod n 2) + 2) ∧
      (-3 : Int) - Maptorio.abs (Int.tmod (-3) 2) = -4 := by
  obtain ⟨tl, br, e, m1, m2, m3, m4⟩ := determineArea_spec w z h
  refine ⟨tl, br, _, e, ?_, ?_, ?_, ?_, by decide⟩
  · rcases m1.2.2 with h0 | ⟨_, _, _, h0⟩ <;> omega
  · rcases m2.2.2 with h0 | ⟨_, _, _, h0⟩ <;> omega
  · intro x y hp
    have h1 := m1.2.1 _ ⟨x, y, hp, rfl⟩
    have h2 := m2.2.1 _ ⟨x, y, hp, rfl⟩
    have h3 := m3.2.1 _ ⟨x, y, hp, rfl⟩
    have h4 := m4.2.1 _ ⟨x, y, hp, rfl⟩
    omega
  · intro n
    rw [abs_tmod_two]
    omega

/-- C6 at the level-3 tiles (-3, 7) and (4, -5). -/
theorem determineArea_contains_witness :
    ∃ tl br w1, determineArea (tileWorld [(3, -3, 7), (3, 4, -5)]) 3 = (some (tl, br), w1) ∧
      tl.x % 2 = 0 ∧ tl.y % 2 = 0 ∧
      (∀ x y, present (tileWorld [(3, -3, 7), (3, 4, -5)]) 3 x y →
        tl.x ≤ x ∧ x ≤ br.x ∧ tl.y ≤ y ∧ y ≤ br.y) ∧
      (∀ n : Int, (n - Maptorio.abs (Int.tmod n 2)) % 2 = 0 ∧
        n - Maptorio.abs (Int.tmod n 2) ≤ n ∧ n < n - Maptorio.abs (Int.tmod n 2) + 2) ∧
      (-3 : Int) - Maptorio.abs (Int.tmod (-3) 2) = -4 :=
  determineArea_contains (tileWorld [(3, -3, 7), (3, 4, -5)]) 3
    (tilesOnly_tileWorld _ _ _ (by decide))

/-- C7, a level whose box is not the smallest: for tiles only at (4,4) and
(5,4) determineArea returns (0,0)-(5,4), while (4,4)-(5,4) has an even top-left
corner, holds both tiles and lies strictly inside. -/
theorem determineArea_not_smallest :
    (determineArea (tileWorld [(1, 4, 4), (1, 5, 4)]) 1).1
        = some ({ x := 0, y := 0 }, { x := 5, y := 4 }) ∧
      (4 : Int) % 2 = 0 ∧
      (∀ x y, present (tileWorld [(1, 4, 4), (1, 5, 4)]) 1 x y →
        4 ≤ x ∧ x ≤ 5 ∧ 4 ≤ y ∧ y ≤ 4) ∧
      (({ x := 0, y := 0 } : point) ≠ { x := 4, y := 4 }) := by
  refine ⟨by decide, by decide, ?_, by decide⟩
  intro x y hp
  rw [present_tileWorld] at hp
  simp only [List.mem_cons, Prod.mk.injEq, List.mem_singleton, List.not_mem_nil, or_false,
    true_and] at hp
  omega

/-- C7 as amended: for a level of tile files with 64-bit coordinates, the box of
determineArea is the smallest rectangle with an even top-left corner that holds
every present tile and the origin (0,0): it is such a rectangle, and every such
rectangle (a, b) holds it. -/
theorem determineArea_smallest_with_origin (w : World) (z : Int) (h : tilesOnly isInt64 w z) :
    ∃ tl br w1, determineArea w z = (some (tl, br), w1) ∧
      (tl.x % 2 = 0 ∧ tl.y % 2 = 0) ∧
      (tl.x ≤ 0 ∧ 0 ≤ br.x ∧ tl.y ≤ 0 ∧ 0 ≤ br.y) ∧
      (∀ x y, present w z x y → tl.x ≤ x ∧ x ≤ br.x ∧ tl.y ≤ y ∧ y ≤ br.y) ∧
      (∀ a b : point, a.x % 2 = 0 → a.y % 2 = 0 →
        (a.x ≤ 0 ∧ 0 ≤ b.x ∧ a.y ≤ 0 ∧ 0 ≤ b.y) →
        (∀ x y, present w z x y → a.x ≤ x ∧ x ≤ b.x ∧ a.y ≤ y ∧ y ≤ b.y) →
        a.x ≤ tl.x ∧ a.y ≤ tl.y ∧ br.x ≤ b.x ∧ br.y ≤ b.y) := by
  obtain ⟨tl, br, e, m1, m2, m3, m4⟩ := determineArea_spec w z h
  refine ⟨tl, br, _, e, ⟨?_, ?_⟩, ⟨m1.1, m3.1, m2.1, m4.1⟩, ?_, ?_⟩
  · rcases m1.2.2 with h0 | ⟨_, _, _, h0⟩ <;> omega
  · rcases m2.2.2 with h0 | ⟨_, _, _, h0⟩ <;> omega
  · intro x y hp
    have h1 := m1.2.1 _ ⟨x, y, hp, rfl⟩
    have h2 := m2.2.1 _ ⟨x, y, hp, rfl⟩
    have h3 := m3.2.1 _ ⟨x, y, hp, rfl⟩
    have h4 := m4.2.1 _ ⟨x, y, hp, rfl⟩
    omega
  · intro a b hax hay ho hall
    refine ⟨?_, ?_, ?_, ?_⟩
    · rcases m1.2.2 with h0 | ⟨x, y, hp, h0⟩
      · omega
      · have := hall x y hp; omega
    · rcases m2.2.2 with h0 | ⟨x, y, hp, h0⟩
      · omega
      · have := hall x y hp; omega
    · rcases m3.2.2 with h0 | ⟨x, y, hp, h0⟩
      · omega
      · have := hall x y hp; omega
    · rcases m4.2.2 with h0 | ⟨x, y, hp, h0⟩
      · omega
      · have := hall x y hp; omega

/-- C7 as amended, at the level-1 tiles (4,4) and (5,4). -/
theorem determineArea_smallest_with_origin_witness :
    ∃ tl br w1, determineArea (tileWorld [(1, 4, 4), (1, 5, 4)]) 1 = (some (tl, br), w1) ∧
      (tl.x % 2 = 0 ∧ tl.y % 2 = 0) ∧
      (tl.x ≤ 0 ∧ 0 ≤ br.x ∧ tl.y ≤ 0 ∧ 0 ≤ br.y) ∧
      (∀ x y, present (tileWorld [(1, 4, 4), (1, 5, 4)]) 1 x y →
        tl.x ≤ x ∧ x ≤ br.x ∧ tl.y ≤ y ∧ y ≤ br.y) ∧
      (∀ a b : point, a.x % 2 = 0 → a.y % 2 = 0 →
        (a.x ≤ 0 ∧ 0 ≤ b.x ∧ a.y ≤ 0 ∧ 0 ≤ b.y) →
        (∀ x y, present (tileWorld [(1, 4, 4), (1, 5, 4)]) 1 x y →
          a.x ≤ x ∧ x ≤ b.x ∧ a.y ≤ y ∧ y ≤ b.y) →
        a.x ≤ tl.x ∧ a.y ≤ tl.y ∧ br.x ≤ b.x ∧ br.y ≤ b.y) :=
  determineArea_smallest_with_origin (tileWorld [(1, 4, 4), (1, 5, 4)]) 1
    (tilesOnly_tileWorld _ _ _ (by decide))

/-! ## An empty level -/

/-- C8: when the source level z+1 has no tile file, determineArea returns the
box (0,0)-(0,0) without a panic, makeLevel computes total 0, writes no tile,
leaves the files as they are and returns false, and the loop of Render,
started at this level, stops there: it returns the directory makeLevel left. -/
theorem empty_level (w : World) (z : Int) (h : Glob w (z + 1) = []) :
    (determineArea w (z + 1)).1 = some ({ x := 0, y := 0 }, { x := 0, y := 0 }) ∧
      levelTotal { x := 0, y := 0 } { x := 0, y := 0 } = 0 ∧
      (makeLevel w z).1 = some false ∧
      totals (makeLevel w z).2.log = 0 :: totals w.log ∧
      written (makeLevel w z).2.log = written w.log ∧
      (makeLevel w z).2.files = w.files ∧
      (∀ n : Nat, (n : Int) = z → renderLoop (n + 1) w = (true, (makeLevel w z).2)) := by
  have hd : determineArea w (z + 1) =
      (some ({ x := 0, y := 0 }, { x := 0, y := 0 }),
        { w with log := Event.glob (z + 1) :: w.log }) := by
    unfold determineArea
    simp only [h, areaLoop]
  have ht : levelTotal { x := 0, y := 0 } { x := 0, y := 0 } = 0 := by decide
  have hno : ∀ w2 : World, w2.files = w.files → ¬ anyChild w2 z 0 0 := by
    intro w2 hw hc
    have key : ∀ a b, ¬ present w2 (z + 1) a b := by
      intro a b hp
      unfold present at hp
      rw [hw] at hp
      have : fileName a b ∈ Glob w (z + 1) := (fileName_mem_Glob w (z + 1) a b).2 hp
      rw [h] at this
      exact absurd this (List.not_mem_nil _)
    unfold anyChild at hc
    rcases hc with hp | hp | hp | hp <;> exact key _ _ hp
  have hl : ∀ w2 : World, levelLoop w2 z { x := 0, y := 0 } { x := 0, y := 0 }
      = makeTile w2 z 0 0 := fun w2 => rfl
  have hmk : makeLevel w z = (some false, makeTile
      { files := w.files, log := Event.total z 0 :: Event.glob (z + 1) :: w.log } z 0 0) := by
    unfold makeLevel
    rw [hd]
    simp only [ht, hl]
    rfl
  have hlog := makeTile_extends
    { files := w.files, log := Event.total z 0 :: Event.glob (z + 1) :: w.log } z 0 0
  obtain ⟨new, hnew, hq⟩ := hlog
  have hno2 := hno
    { files := w.files, log := Event.total z 0 :: Event.glob (z + 1) :: w.log } rfl
  refine ⟨by rw [hd], ht, by rw [hmk], ?_, ?_, ?_, ?_⟩
  · rw [hmk]
    simp only
    rw [hnew, totals_append, totals_tileEvents z new hq]
    rfl
  · rw [hmk]
    simp only
    rw [makeTile_written, if_neg hno2]
    rfl
  · rw [hmk]
    simp only
    rw [makeTile_files, if_neg hno2]
  · intro n hn
    subst hn
    rw [renderLoop_succ n w _ false hmk]
    simp [hmk]

/-- C8 at a directory whose only tile is at level 3, for z = 9. -/
theorem empty_level_witness :
    (determineArea (tileWorld [(3, 1, 1)]) (9 + 1)).1
        = some ({ x := 0, y := 0 }, { x := 0, y := 0 }) ∧
      levelTotal { x := 0, y := 0 } { x := 0, y := 0 } = 0 ∧
      (makeLevel (tileWorld [(3, 1, 1)]) 9).1 = some false ∧
      totals (makeLevel (tileWorld [(3, 1, 1)]) 9).2.log = 0 :: totals (tileWorld [(3, 1, 1)]).log ∧
      written (makeLevel (tileWorld [(3, 1, 1)]) 9).2.log = written (tileWorld [(3, 1, 1)]).log ∧
      (makeLevel (tileWorld [(3, 1, 1)]) 9).2.files = (tileWorld [(3, 1, 1)]).files ∧
      (∀ n : Nat, (n : Int) = 9 →
        renderLoop (n + 1) (tileWorld [(3, 1, 1)]) = (true, (makeLevel (tileWorld [(3, 1, 1)]) 9).2)) :=
  empty_level (tileWorld [(3, 1, 1)]) 9 (by decide)

/-! ## File names that are not tile names -/

theorem Atoi_isInt64 (s : List Char) : isInt64 (Atoi s) := by
  unfold Atoi isInt64
  split
  · omega
  · split_ifs <;> omega

theorem Split_ne_nil (s : List Char) : Split s ≠ [] := by
  cases s with
  | nil => simp [Split]
  | cons c cs =>
    unfold Split
    split_ifs
    · simp
    · split <;> simp

theorem Split_of_mem_x (s : List Char) (h : 'x' ∈ s) :
    ∃ p0 p1 rest, Split s = p0 :: p1 :: rest := by
  induction s with
  | nil => exact absurd h (List.not_mem_nil _)
  | cons c cs ih =>
    unfold Split
    split_ifs with hc
    · cases hs : Split cs with
      | nil => exact absurd hs (Split_ne_nil cs)
      | cons p ps => exact ⟨[], p, ps, rfl⟩
    · have hcs : 'x' ∈ cs := by
        rcases List.mem_cons.1 h with e | e
        · exact absurd e.symm hc
        · exact e
      obtain ⟨p0, p1, rest, e⟩ := ih hcs
      rw [e]
      exact ⟨c :: p0, p1, rest, rfl⟩

theorem mem_x_TrimSuffix (f : List Char) (hs : jpg.isSuffixOf f = true) (hx : 'x' ∈ f) :
    'x' ∈ TrimSuffix f jpg := by
  rw [List.isSuffixOf_iff_suffix] at hs
  obtain ⟨s, rfl⟩ := hs
  have e : TrimSuffix (s ++ jpg) jpg = s := by
    unfold TrimSuffix
    rw [if_pos (List.isSuffixOf_iff_suffix.2 ⟨s, rfl⟩)]
    apply List.take_left'
    simp only [List.length_append]
    omega
  rw [e]
  rcases List.mem_append.1 hx with h | h
  · exact h
  · exact absurd h (by decide)

theorem areaStep_canonName (box : point × point) (f : List Char)
    (h : 'x' ∈ TrimSuffix f jpg) : areaStep box f = areaStep box (canonName f) := by
  obtain ⟨p0, p1, rest, e⟩ := Split_of_mem_x _ h
  have hr : readName f = { x := Atoi p0, y := Atoi p1 } := by
    unfold readName
    rw [e]
  unfold canonName
  rw [hr, areaStep_fileName box _ _ (Atoi_isInt64 p0) (Atoi_isInt64 p1)]
  unfold areaStep
  simp only [e, abs_tmod_two, min_eq, max_eq]

theorem areaStep_isSome (box : point × point) (f : List Char)
    (h : 'x' ∈ TrimSuffix f jpg) : ∃ b, areaStep box f = some b := by
  rw [areaStep_canonName box f h]
  unfold canonName
  exact ⟨_, areaStep_fileName box _ _ (by
    obtain ⟨p0, p1, rest, e⟩ := Split_of_mem_x _ h
    unfold readName; rw [e]; exact Atoi_isInt64 p0) (by
    obtain ⟨p0, p1, rest, e⟩ := Split_of_mem_x _ h
    unfold readName; rw [e]; exact Atoi_isInt64 p1)⟩

theorem areaLoop_canonName (fs : List (List Char)) :
    ∀ box : point × point, (∀ f ∈ fs, 'x' ∈ TrimSuffix f jpg) →
      areaLoop (fs.map canonName) box = areaLoop fs box ∧ ∃ b, areaLoop fs box = some b := by
  induction fs with
  | nil => intro box _; exact ⟨rfl, box, rfl⟩
  | cons f fs ih =>
    intro box h
    have hf := h f (List.mem_cons_self _ _)
    obtain ⟨b, hb⟩ := areaStep_isSome box f hf
    have hc : areaStep box (canonName f) = some b := by rw [← areaStep_canonName box f hf, hb]
    simp only [List.map_cons, areaLoop, hb, hc]
    exact ih b (fun g hg => h g (List.mem_cons_of_mem _ hg))

/-- A round of the loop keeps the origin in the box, and a name read as (0,0)
leaves the box as it is. -/
theorem areaStep_origin (box : point × point) (f : List Char) (h : 'x' ∈ TrimSuffix f jpg)
    (hbox : box.1.x ≤ 0 ∧ box.1.y ≤ 0 ∧ 0 ≤ box.2.x ∧ 0 ≤ box.2.y) :
    (∃ b, areaStep box f = some b ∧ b.1.x ≤ 0 ∧ b.1.y ≤ 0 ∧ 0 ≤ b.2.x ∧ 0 ≤ b.2.y) ∧
      (readName f = { x := 0, y := 0 } → areaStep box f = some box) := by
  obtain ⟨p0, p1, rest, e⟩ := Split_of_mem_x _ h
  have hr : readName f = { x := Atoi p0, y := Atoi p1 } := by
    unfold readName
    rw [e]
  have hs : areaStep box f =
      some ({ x := Min.min box.1.x (2 * (Atoi p0 / 2)), y := Min.min box.1.y (2 * (Atoi p1 / 2)) },
            { x := Max.max box.2.x (Atoi p0), y := Max.max box.2.y (Atoi p1) }) := by
    unfold areaStep
    simp only [e, abs_tmod_two, min_eq, max_eq]
  constructor
  · refine ⟨_, hs, ?_, ?_, ?_, ?_⟩ <;> simp only <;> omega
  · intro h0
    rw [hr] at h0
    simp only [point.mk.injEq] at h0
    rw [hs, h0.1, h0.2]
    obtain ⟨⟨a, b⟩, ⟨c, d⟩⟩ := box
    simp only at hbox
    simp only [Option.some.injEq, Prod.mk.injEq, point.mk.injEq]
    omega

theorem areaLoop_filter (fs : List (List Char)) :
    ∀ box : point × point, (∀ f ∈ fs, 'x' ∈ TrimSuffix f jpg) →
      (box.1.x ≤ 0 ∧ box.1.y ≤ 0 ∧ 0 ≤ box.2.x ∧ 0 ≤ box.2.y) →
      areaLoop (fs.filter (fun f => decide (readName f ≠ { x := 0, y := 0 }))) box
        = areaLoop fs box := by
  induction fs with
  | nil => intro box _ _; rfl
  | cons f fs ih =>
    intro box h hbox
    have hf := h f (List.mem_cons_self _ _)
    have hfs : ∀ g ∈ fs, 'x' ∈ TrimSuffix g jpg := fun g hg => h g (List.mem_cons_of_mem _ hg)
    obtain ⟨⟨b, hb, hbb⟩, hz⟩ := areaStep_origin box f hf hbox
    by_cases h0 : readName f = { x := 0, y := 0 }
    · rw [List.filter_cons_of_neg (by simpa using h0)]
      rw [areaLoop, hz h0]
      exact ih box hfs hbox
    · rw [List.filter_cons_of_pos (by simpa using h0)]
      rw [areaLoop, areaLoop, hb]
      exact ih b hfs hbb

/-- C9, names that are not skipped: a name without `x` makes determineArea
panic, and the names `5xfoo.jpg` and `1x2x3.jpg`, neither of the form
`<int>x<int>.jpg`, move the box away from the box (0,0)-(0,0) of the list
without them. -/
theorem determineArea_does_not_skip :
    (determineArea { files := [(1, "foo.jpg".toList)], log := [] } 1).1 = none ∧
      (determineArea { files := [(1, "5xfoo.jpg".toList)], log := [] } 1).1
        = some ({ x := 0, y := 0 }, { x := 5, y := 0 }) ∧
      (determineArea { files := [(1, "1x2x3.jpg".toList)], log := [] } 1).1
        = some ({ x := 0, y := 0 }, { x := 1, y := 2 }) ∧
      (determineArea { files := [], log := [] } 1).1
        = some ({ x := 0, y := 0 }, { x := 0, y := 0 }) ∧
      parseInt "foo".toList = none ∧
      Split "1x2x3".toList = ["1".toList, "2".toList, "3".toList] := by
  set_option maxRecDepth 100000 in decide

/-- C9 as amended: when every `.jpg` name of the level holds an `x`,
determineArea does not panic, and its box is the one it returns for the list
with every name replaced by `<a>x<b>.jpg`, a and b being what Atoi reads (0
when it fails) from the text before the first `x` and from the text between
the first and the second `x`; it is also the box for the list without the
names whose a and b are both 0, and no other name is skipped. -/
theorem determineArea_reads_every_name (w w1 w2 : World) (z : Int)
    (hx : ∀ f ∈ Glob w z, 'x' ∈ f)
    (h1 : Glob w1 z = (Glob w z).map canonName)
    (h2 : Glob w2 z = (Glob w z).filter (fun f => decide (readName f ≠ { x := 0, y := 0 }))) :
    ∃ tl br, (determineArea w z).1 = some (tl, br) ∧
      (determineArea w1 z).1 = some (tl, br) ∧
      (determineArea w2 z).1 = some (tl, br) := by
  have hall : ∀ f ∈ Glob w z, 'x' ∈ TrimSuffix f jpg := by
    intro f hf
    exact mem_x_TrimSuffix f ((mem_Glob w z f).1 hf).2 (hx f hf)
  obtain ⟨e1, ⟨tl, br⟩, e⟩ :=
    areaLoop_canonName (Glob w z) ({ x := 0, y := 0 }, { x := 0, y := 0 }) hall
  have e2 := areaLoop_filter (Glob w z) ({ x := 0, y := 0 }, { x := 0, y := 0 }) hall
    (by simp)
  refine ⟨tl, br, ?_, ?_, ?_⟩
  · unfold determineArea
    simp only [e]
  · unfold determineArea
    simp only [h1, e1, e]
  · unfold determineArea
    simp only [h2, e2, e]

/-- C9 as amended, at the names 5xfoo.jpg, axb.jpg, -3x4.jpg and 1x2x3.jpg. -/
theorem determineArea_reads_every_name_witness :
    ∃ tl br,
      (determineArea { files := [(1, "5xfoo.jpg".toList), (1, "axb.jpg".toList),
          (1, "-3x4.jpg".toList), (1, "1x2x3.jpg".toList)], log := [] } 1).1 = some (tl, br) ∧
      (determineArea { files := [(1, "5x0.jpg".toList), (1, "0x0.jpg".toList),
          (1, "-3x4.jpg".toList), (1, "1x2.jpg".toList)], log := [] } 1).1 = some (tl, br) ∧
      (determineArea { files := [(1, "5xfoo.jpg".toList),
          (1, "-3x4.jpg".toList), (1, "1x2x3.jpg".toList)], log := [] } 1).1 = some (tl, br) :=
  determineArea_reads_every_name
    { files := [(1, "5xfoo.jpg".toList), (1, "axb.jpg".toList),
          (1, "-3x4.jpg".toList), (1, "1x2x3.jpg".toList)], log := [] }
    { files := [(1, "5x0.jpg".toList), (1, "0x0.jpg".toList),
          (1, "-3x4.jpg".toList), (1, "1x2.jpg".toList)], log := [] }
    { files := [(1, "5xfoo.jpg".toList),
          (1, "-3x4.jpg".toList), (1, "1x2x3.jpg".toList)], log := [] } 1
    (by decide) (by decide) (by decide)

/-! ## The levels `Render` reads and writes -/

theorem scans_append (a b : List Event) : scans (a ++ b) = scans a ++ scans b := by
  induction a with
  | nil => rfl
  | cons e es ih => cases e <;> simp [scans, ih]

theorem scans_tileEvents (z : Int) (new : List Event) (h : ∀ e ∈ new, tileEvent z e) :
    scans new = [] := by
  induction new with
  | nil => rfl
  | cons e es ih =>
    have he := h e (List.mem_cons_self _ _)
    have hes := ih (fun e he => h e (List.mem_cons_of_mem _ he))
    cases e <;> simp [tileEvent] at he <;> simp [scans, hes]

theorem tileEvent.levelEvent {z : Int} {e : Event} (h : tileEvent z e) : levelEvent z e := by
  cases e <;> simp [tileEvent] at h <;> simp [Maptorio.levelEvent, h]

theorem makeLevel_events (w : World) (z : Int) :
    ∃ new, (makeLevel w z).2.log = new ++ w.log ∧ (∀ e ∈ new, levelEvent z e) ∧
      (scans new).length = 1 := by
  rcases makeLevel_log w z with ⟨_, hl⟩ | ⟨tl, br, new, _, _, hl, hq⟩
  · refine ⟨[Event.glob (z + 1)], hl, ?_, rfl⟩
    intro e he
    rw [List.mem_singleton] at he
    rw [he]
    simp [levelEvent]
  · refine ⟨new ++ [Event.total z (levelTotal tl br), Event.glob (z + 1)], ?_, ?_, ?_⟩
    · rw [hl]; simp
    · intro e he
      rcases List.mem_append.1 he with h | h
      · exact (hq e h).levelEvent
      · simp only [List.mem_cons, List.mem_singleton, List.not_mem_nil, or_false] at h
        rcases h with rfl | rfl <;> simp [levelEvent]
    · rw [scans_append, scans_tileEvents z new hq]
      rfl

theorem renderLoop_events (n : Nat) : ∀ w : World,
    ∃ new, (renderLoop n w).2.log = new ++ w.log ∧
      (∀ e ∈ new, ∃ z : Int, 0 ≤ z ∧ z < n ∧ levelEvent z e) ∧ (scans new).length ≤ n := by
  induction n with
  | zero =>
    intro w
    exact ⟨[], rfl, by simp, by simp [scans]⟩
  | succ n ih =>
    intro w
    obtain ⟨new, hl, hq, hs⟩ := makeLevel_events w n
    have hq' : ∀ e ∈ new, ∃ z : Int, 0 ≤ z ∧ z < ((n + 1 : Nat) : Int) ∧ levelEvent z e := by
      intro e he
      exact ⟨n, by omega, by push_cast; omega, hq e he⟩
    have stop : ∀ b : Bool, ∃ new1, ((b, (makeLevel w n).2) : Bool × World).2.log = new1 ++ w.log ∧
        (∀ e ∈ new1, ∃ z : Int, 0 ≤ z ∧ z < ((n + 1 : Nat) : Int) ∧ levelEvent z e) ∧
        (scans new1).length ≤ n + 1 := fun b => ⟨new, hl, hq', by omega⟩
    rw [renderLoop]
    rcases hm : makeLevel w (n : Int) with ⟨r, w1⟩
    rw [hm] at stop hl
    simp only at hl stop
    cases r with
    | none => exact stop false
    | some hasmore =>
      cases hasmore with
      | false => exact stop true
      | true =>
        simp only [if_true]
        obtain ⟨new2, hl2, hq2, hs2⟩ := ih w1
        refine ⟨new2 ++ new, by rw [hl2, hl, List.append_assoc], ?_, ?_⟩
        · intro e he
          rcases List.mem_append.1 he with h | h
          · obtain ⟨z, h0, h1, h2⟩ := hq2 e h
            exact ⟨z, h0, by push_cast; omega, h2⟩
          · exact hq' e h
        · rw [scans_append, List.length_append]
          omega

/-- C10, a run that reads level 10 and writes level 9: with the one leaf tile
(0,0) at level 10, Render globs and reads level 10 and writes the tile (0,0) of
level 9. -/
theorem Render_reads_level_ten :
    Event.glob 10 ∈ (Render (tileWorld [(10, 0, 0)])).2.log ∧
      Event.read 10 0 0 ∈ (Render (tileWorld [(10, 0, 0)])).2.log ∧
      Event.write 9 0 0 ∈ (Render (tileWorld [(10, 0, 0)])).2.log ∧
      present (Render (tileWorld [(10, 0, 0)])).2 9 0 0 := by
  set_option maxRecDepth 100000 in decide

/-- C10 as amended: the finest level the builder reads is level 10 and it
writes tiles only for levels 9 and coarser: in every run of Render, panic or
not, the level of every glob and every read is from 1 to 10, the level of
every write is from 0 to 9, and there are at most 10 level iterations. -/
theorem Render_levels (w : World) :
    ∃ new, (Render w).2.log = new ++ w.log ∧
      (∀ e ∈ new, ∀ l, e.readLevel = some l → 1 ≤ l ∧ l ≤ 10) ∧
      (∀ e ∈ new, ∀ l, e.writeLevel = some l → 0 ≤ l ∧ l ≤ 9) ∧
      (scans new).length ≤ 10 := by
  obtain ⟨new, hl, hq, hs⟩ := renderLoop_events 10 w
  refine ⟨new, hl, ?_, ?_, hs⟩
  · intro e he l hr
    obtain ⟨z, h0, h1, h2⟩ := hq e he
    cases e <;> simp [Event.readLevel] at hr <;> simp [levelEvent] at h2 <;> omega
  · intro e he l hr
    obtain ⟨z, h0, h1, h2⟩ := hq e he
    cases e <;> simp [Event.writeLevel] at hr
    simp [levelEvent] at h2
    omega

/-! ## The tasks of a level write different files -/

theorem forStep2_ge (fuel : Nat) : ∀ (lo hi v : Int), v ∈ forStep2 fuel lo hi → lo ≤ v := by
  induction fuel with
  | zero =>
    intro lo hi v h
    exact absurd h (List.not_mem_nil _)
  | succ k ih =>
    intro lo hi v h
    unfold forStep2 at h
    split_ifs at h with hle
    · rcases List.mem_cons.1 h with e | e
      · omega
      · have := ih _ _ _ e
        omega
    · exact absurd h (List.not_mem_nil _)

theorem forStep2_nodup (fuel : Nat) : ∀ (lo hi : Int), (forStep2 fuel lo hi).Nodup := by
  induction fuel with
  | zero => intro lo hi; exact List.nodup_nil
  | succ k ih =>
    intro lo hi
    unfold forStep2
    split_ifs with hle
    · refine List.nodup_cons.2 ⟨?_, ih _ _⟩
      intro hm
      have := forStep2_ge k _ _ _ hm
      omega
    · exact List.nodup_nil

theorem loopValues_nodup (lo hi : Int) : (loopValues lo hi).Nodup :=
  forStep2_nodup _ _ _

/-- C12: for the box determineArea returns for a level of tiles that float64
holds exactly, the loops of makeLevel enumerate no source coordinate twice, and
two distinct enumerated coordinates (x, y) and (x', y') are halved to distinct
destinations, so the two tasks write files of different names, and no child
coordinate lies in both of the quads they read. -/
theorem tasks_write_disjoint (w : World) (z : Int) (h : tilesOnly isExact w z) :
    ∃ tl br w1, determineArea w z = (some (tl, br), w1) ∧
      (loopValues tl.x br.x).Nodup ∧ (loopValues tl.y br.y).Nodup ∧
      ∀ x ∈ loopValues tl.x br.x, ∀ y ∈ loopValues tl.y br.y,
      ∀ x' ∈ loopValues tl.x br.x, ∀ y' ∈ loopValues tl.y br.y, (x, y) ≠ (x', y') →
        (half x, half y) ≠ (half x', half y') ∧
        fileName (half x) (half y) ≠ fileName (half x') (half y') ∧
        ∀ cx cy : Int, ¬ (((cx = x ∨ cx = x + 1) ∧ (cy = y ∨ cy = y + 1)) ∧
          ((cx = x' ∨ cx = x' + 1) ∧ (cy = y' ∨ cy = y' + 1))) := by
  obtain ⟨tl, br, e, m1, m2, m3, m4⟩ := determineArea_spec w z (h.mono isExact.toInt64)
  have hex : ∀ {x y : Int}, present w z x y → isExact x ∧ isExact y :=
    fun hp => h.of_present hp
  have tlx : tl.x % 2 = 0 ∧ -(2 ^ 53) ≤ tl.x := by
    rcases m1.2.2 with h0 | ⟨x, y, hp, h0⟩
    · omega
    · have := (hex hp).1; unfold isExact at this; omega
  have tly : tl.y % 2 = 0 ∧ -(2 ^ 53) ≤ tl.y := by
    rcases m2.2.2 with h0 | ⟨x, y, hp, h0⟩
    · omega
    · have := (hex hp).2; unfold isExact at this; omega
  have brx : br.x ≤ 2 ^ 53 := by
    rcases m3.2.2 with h0 | ⟨x, y, hp, h0⟩
    · omega
    · have := (hex hp).1; unfold isExact at this; omega
  have bry : br.y ≤ 2 ^ 53 := by
    rcases m4.2.2 with h0 | ⟨x, y, hp, h0⟩
    · omega
    · have := (hex hp).2; unfold isExact at this; omega
  refine ⟨tl, br, _, e, loopValues_nodup _ _, loopValues_nodup _ _, ?_⟩
  intro x hx y hy x' hx' y' hy' hne
  rw [mem_loopValues] at hx hy hx' hy'
  have ex : half x = x / 2 := half_exact x (by omega) (by omega)
  have ey : half y = y / 2 := half_exact y (by omega) (by omega)
  have ex' : half x' = x' / 2 := half_exact x' (by omega) (by omega)
  have ey' : half y' = y' / 2 := half_exact y' (by omega) (by omega)
  have hxy : x ≠ x' ∨ y ≠ y' := by
    by_contra hc
    push_neg at hc
    exact hne (by rw [hc.1, hc.2])
  have hdest : (half x, half y) ≠ (half x', half y') := by
    intro heq
    simp only [Prod.mk.injEq] at heq
    rw [ex, ey, ex', ey'] at heq
    omega
  refine ⟨hdest, ?_, ?_⟩
  · intro hf
    obtain ⟨e1, e2⟩ := fileName_inj _ _ _ _ hf
    exact hdest (by rw [e1, e2])
  · intro cx cy hc
    omega

/-- C12 at the level-1 tiles (4,4), (5,4) and (-3,-1). -/
theorem tasks_write_disjoint_witness :
    ∃ tl br w1, determineArea (tileWorld [(1, 4, 4), (1, 5, 4), (1, -3, -1)]) 1
        = (some (tl, br), w1) ∧
      (loopValues tl.x br.x).Nodup ∧ (loopValues tl.y br.y).Nodup ∧
      ∀ x ∈ loopValues tl.x br.x, ∀ y ∈ loopValues tl.y br.y,
      ∀ x' ∈ loopValues tl.x br.x, ∀ y' ∈ loopValues tl.y br.y, (x, y) ≠ (x', y') →
        (half x, half y) ≠ (half x', half y') ∧
        fileName (half x) (half y) ≠ fileName (half x') (half y') ∧
        ∀ cx cy : Int, ¬ (((cx = x ∨ cx = x + 1) ∧ (cy = y ∨ cy = y + 1)) ∧
          ((cx = x' ∨ cx = x' + 1) ∧ (cy = y' ∨ cy = y' + 1))) :=
  tasks_write_disjoint (tileWorld [(1, 4, 4), (1, 5, 4), (1, -3, -1)]) 1
    (tilesOnly_tileWorld _ _ _ (by decide))

/-! ## The limiter -/

theorem holdingCount_append_blocked (l : List Phase) :
    holdingCount (l ++ [Phase.blocked]) = holdingCount l := by
  induction l with
  | nil => rfl
  | cons p ps ih =>
    show (if p.holds then 1 else 0) + holdingCount (ps ++ [Phase.blocked])
      = (if p.holds then 1 else 0) + holdingCount ps
    rw [ih]

theorem holdingCount_set (l : List Phase) : ∀ (i : Nat) (p q : Phase), l.get? i = some p →
    holdingCount (l.set i q) + (if p.holds then 1 else 0)
      = holdingCount l + (if q.holds then 1 else 0) := by
  induction l with
  | nil => intro i p q h; simp at h
  | cons a as ih =>
    intro i p q h
    cases i with
    | zero =>
      simp only [List.get?_cons_zero, Option.some.injEq] at h
      subst h
      simp only [List.set_cons_zero, holdingCount]
      omega
    | succ k =>
      simp only [List.get?_cons_succ] at h
      have := ih k p q h
      simp only [List.set_cons_succ, holdingCount]
      omega

theorem holdingCount_pos (l : List Phase) : ∀ (i : Nat) (p : Phase), l.get? i = some p →
    p.holds = true → 0 < holdingCount l := by
  induction l with
  | nil => intro i p h; simp at h
  | cons a as ih =>
    intro i p h hp
    cases i with
    | zero =>
      simp only [List.get?_cons_zero, Option.some.injEq] at h
      subst h
      simp only [holdingCount, hp, if_true]
      omega
    | succ k =>
      simp only [List.get?_cons_succ] at h
      have := ih k p h hp
      simp only [holdingCount]
      omega

theorem holdingCount_all_done (l : List Phase) (h : l.all Phase.isDone = true) :
    holdingCount l = 0 := by
  induction l with
  | nil => rfl
  | cons a as ih =>
    simp only [List.all_cons, Bool.and_eq_true] at h
    have ha : a.holds = false := by
      cases a <;> simp [Phase.isDone] at h
      rfl
    simp only [holdingCount, ha, ih h.2]
    rfl

theorem get?_set_self (l : List Phase) : ∀ (i : Nat) (p q : Phase), l.get? i = some p →
    (l.set i q).get? i = some q := by
  induction l with
  | nil => intro i p q h; simp at h
  | cons a as ih =>
    intro i p q h
    cases i with
    | zero => rfl
    | succ k =>
      simp only [List.get?_cons_succ] at h
      simp only [List.set_cons_succ, List.get?_cons_succ]
      exact ih k p q h

theorem Gate.Balanced.at_start (n : Nat) : (Gate.start n).Balanced :=
  ⟨rfl, Nat.zero_le _⟩

theorem Gate.Balanced.after_step {g g1 : Gate} (hb : g.Balanced) (a : Action)
    (h : g.step a = some g1) : g1.Balanced := by
  obtain ⟨h1, h2⟩ := hb
  unfold Gate.holding at h1
  unfold Gate.step at h
  by_cases hh : g.halted = true
  · rw [if_pos hh] at h
    exact absurd h (by simp)
  rw [if_neg hh] at h
  cases a with
  | spawn =>
    simp only at h
    split_ifs at h
    simp only [Option.some.injEq] at h
    subst h
    exact ⟨by simp only [Gate.holding, holdingCount_append_blocked]; exact h1, h2⟩
  | send i =>
    simp only at h
    split_ifs at h with hs
    simp only [Option.some.injEq] at h
    subst h
    have := holdingCount_set g.tasks i Phase.blocked Phase.working hs.1
    simp only [Phase.holds, if_true, Bool.false_eq_true, if_false] at this
    refine ⟨?_, ?_⟩
    · simp only [Gate.holding]; omega
    · have := hs.2; simp only; omega
  | finish i o =>
    simp only at h
    split_ifs at h with hs
    simp only [Option.some.injEq] at h
    subst h
    have := holdingCount_set g.tasks i Phase.working (Phase.unwinding o) hs
    simp only [Phase.holds, if_true] at this
    refine ⟨?_, h2⟩
    simp only [Gate.holding]; omega
  | receive i =>
    simp only at h
    split at h
    · rename_i o hs
      split_ifs at h with ht
      simp only [Option.some.injEq] at h
      subst h
      have := holdingCount_set g.tasks i (Phase.unwinding o) (Phase.done o) hs
      simp only [Phase.holds, if_true, Bool.false_eq_true, if_false] at this
      refine ⟨?_, ?_⟩
      · simp only [Gate.holding]; omega
      · simp only; omega
    · exact absurd h (by simp)
  | nextLevel n =>
    simp only at h
    split_ifs at h with hs
    simp only [Option.some.injEq] at h
    subst h
    have := holdingCount_all_done g.tasks hs.2
    refine ⟨?_, h2⟩
    simp only [Gate.holding, holdingCount]; omega
  | halt =>
    simp only at h
    split_ifs at h
    simp only [Option.some.injEq] at h
    subst h
    exact ⟨h1, h2⟩

theorem Gate.Balanced.after_run (as : List Action) : ∀ {g g1 : Gate}, g.Balanced →
    g.run as = some g1 → g1.Balanced := by
  induction as with
  | nil =>
    intro g g1 hb h
    simp only [Gate.run, Option.some.injEq] at h
    rw [← h]; exact hb
  | cons a as ih =>
    intro g g1 hb h
    unfold Gate.run at h
    cases hs : g.step a with
    | none => rw [hs] at h; exact absurd h (by simp)
    | some g2 =>
      rw [hs] at h
      exact ih (hb.after_step a hs) h

/-- C11: in every state a run of the goroutines reaches, whatever the number
of quads of each level and the order of the steps, at most 48 tasks hold a
slot of the limiter, and they are as many as the tokens in the channel; and a
task whose makeTile has returned or panicked, unless the runtime has ended the
program, can run its deferred function, which takes a token out and leaves the
task done, one task fewer holding a slot. -/
theorem limiter_bound (n : Nat) (acts : List Action) (g : Gate)
    (h : (Gate.start n).run acts = some g) :
    g.holding ≤ 48 ∧ g.tokens = g.holding ∧
      ∀ (i : Nat) (o : Outcome), g.halted = false →
        g.tasks.get? i = some (Phase.unwinding o) →
        ∃ g1, g.step (Action.receive i) = some g1 ∧ g1.holding + 1 = g.holding ∧
          g1.tokens + 1 = g.tokens ∧ g1.tasks.get? i = some (Phase.done o) := by
  have hb := (Gate.Balanced.at_start n).after_run acts h
  obtain ⟨h1, h2⟩ := hb
  refine ⟨by rw [← h1]; exact h2, h1, ?_⟩
  intro i o hh hi
  have hpos : 0 < g.tokens := by
    rw [h1]
    exact holdingCount_pos g.tasks i _ hi rfl
  have hstep : g.step (Action.receive i) = some
      { g with tokens := g.tokens - 1, tasks := g.tasks.set i (Phase.done o),
               panicking := g.panicking || decide (o = Outcome.panicked) } := by
    unfold Gate.step
    rw [if_neg (by simp [hh])]
    simp only [hi, if_pos hpos]
  have hb1 := (Gate.Balanced.after_step ⟨h1, h2⟩ _ hstep).1
  refine ⟨_, hstep, ?_, ?_, get?_set_self g.tasks i _ _ hi⟩
  · rw [← hb1, ← h1]
    simp only
    omega
  · simp only
    omega

/-- C11 at a level of two quads, both tasks past their send and `makeTile`
panicked in the second. -/
theorem limiter_bound_witness :
    (Gate.start 2).run [Action.spawn, Action.spawn, Action.send 1, Action.send 0,
        Action.finish 1 Outcome.panicked] = some twoTasks ∧
      twoTasks.holding ≤ 48 ∧ twoTasks.tokens = twoTasks.holding ∧
      ∀ (i : Nat) (o : Outcome), twoTasks.halted = false →
        twoTasks.tasks.get? i = some (Phase.unwinding o) →
        ∃ g1, twoTasks.step (Action.receive i) = some g1 ∧
          g1.holding + 1 = twoTasks.holding ∧
          g1.tokens + 1 = twoTasks.tokens ∧ g1.tasks.get? i = some (Phase.done o) :=
  ⟨by decide,
    limiter_bound 2
      [Action.spawn, Action.spawn, Action.send 1, Action.send 0,
        Action.finish 1 Outcome.panicked]
      twoTasks (by decide)⟩

/-- The bound is reached and holds the next task back: in a level of 49 quads,
once 48 tasks have sent their token the 49th cannot send until a task has run
its deferred function. -/
theorem limiter_full_blocks :
    ((Gate.start 49).run
        (List.replicate 49 Action.spawn ++ (List.range 48).map Action.send)).map Gate.holding
      = some 48 ∧
    (Gate.start 49).run
        (List.replicate 49 Action.spawn ++ (List.range 48).map Action.send
          ++ [Action.send 48]) = none ∧
    ((Gate.start 49).run
        (List.replicate 49 Action.spawn ++ (List.range 48).map Action.send
          ++ [Action.finish 7 Outcome.panicked, Action.receive 7, Action.send 48])).map
        Gate.holding = some 48 := by
  set_option maxRecDepth 100000 in decide

end Maptorio
